import Mathlib

/-
  Verification development for the Orange Book formulation-identity
  resolution engine.

  The definitions below are a shallow embedding of the relevant parts of
  the source:

  * `src/ob.py` — `FormulationTuple`, `ApplicationTuple`, the
    `EquivalenceClass` registry (class-level dictionaries `eq_classes`,
    `next_eq_id`, `form_tuple_classes`, `app_tuple_classes` become the
    fields of `EqState`; Python's in-place object mutation becomes
    id-indirected state passing), `form_tuple` / `parse_strengths`,
    `to_dict` and the class-reloading loop of `load_summary`.
  * `src/match_ndc_ob.py` — `equivalent_form`, `form_route_words`,
    `match_ingredient`, `equivalent_composition`, `equivalent_strength`.

  Python exceptions (AssertionError / RuntimeError / float() and
  division failures) are modelled as `none` results; Python `float`
  arithmetic is modelled over `ℚ` (the inputs exercised are exact
  decimals far from binary-float tolerance boundaries).
-/

set_option maxHeartbeats 1600000

/-! ## Association-list utilities (Python dicts) -/

def lookupA {α β : Type} [DecidableEq α] : List (α × β) → α → Option β
  | [], _ => none
  | p :: ps, a => if p.1 = a then some p.2 else lookupA ps a

def setA {α β : Type} [DecidableEq α] : List (α × β) → α → β → List (α × β)
  | [], a, b => [(a, b)]
  | p :: ps, a, b => if p.1 = a then (a, b) :: ps else p :: setA ps a b

def addToSet {α : Type} [DecidableEq α] (l : List α) (a : α) : List α :=
  if a ∈ l then l else l ++ [a]

/-! ## Data structures (src/ob.py lines 26-47) -/

structure ApplicationTuple where
  appl_no : String
  product_no : String
deriving DecidableEq, Repr

structure FormulationTuple where
  ingredient : String
  form_route : String
  strength : String
deriving DecidableEq, Repr

/-- The two membership sets of one `EquivalenceClass` object
(`self.form_tuples`, `self.app_tuples`); Python sets become
duplicate-free lists. -/
structure EqClassData where
  form_tuples : List FormulationTuple
  app_tuples : List ApplicationTuple
deriving DecidableEq

/-- The class-level registry state of `EquivalenceClass`
(src/ob.py lines 134-137): `eq_classes` (id → class, insertion order),
`next_eq_id`, and the two key → class dictionaries, with object
references replaced by class ids. -/
structure EqState where
  eq_classes : List (Nat × EqClassData)
  next_eq_id : Nat
  form_tuple_classes : List (FormulationTuple × Nat)
  app_tuple_classes : List (ApplicationTuple × Nat)
deriving DecidableEq

namespace EquivalenceClass

/-- The initial registry state (empty class-level dictionaries). -/
def emptyState : EqState := ⟨[], 0, [], []⟩

def getClass (s : EqState) (cid : Nat) : Option EqClassData :=
  lookupA s.eq_classes cid

def updateClass (s : EqState) (cid : Nat) (f : EqClassData → EqClassData) :
    EqState :=
  { s with eq_classes :=
      s.eq_classes.map (fun p => if p.1 = cid then (p.1, f p.2) else p) }

/-- `EquivalenceClass.add_form_tuple` (src/ob.py lines 157-164):
raises (`none`) if the formulation tuple is already claimed by any
class, otherwise registers it to class `cid` and adds it to that
class's membership set. -/
def add_form_tuple (s : EqState) (cid : Nat) (ft : FormulationTuple) :
    Option EqState :=
  if (lookupA s.form_tuple_classes ft).isSome then none
  else
    let s1 := updateClass s cid
      (fun c => { c with form_tuples := addToSet c.form_tuples ft })
    some { s1 with form_tuple_classes := setA s1.form_tuple_classes ft cid }

/-- `EquivalenceClass.add_app_tuple` (src/ob.py lines 166-174). -/
def add_app_tuple (s : EqState) (cid : Nat) (apt : ApplicationTuple) :
    Option EqState :=
  if (lookupA s.app_tuple_classes apt).isSome then none
  else
    let s1 := updateClass s cid
      (fun c => { c with app_tuples := addToSet c.app_tuples apt })
    some { s1 with app_tuple_classes := setA s1.app_tuple_classes apt cid }

/-- `EquivalenceClass.append` (src/ob.py lines 176-188), on the class
with id `cid`; `none` is the AssertionError "Neither form nor app
tuple matched" (or a dangling class id, impossible in the `add` path). -/
def appendOp (s : EqState) (cid : Nat) (ft : FormulationTuple)
    (apt : ApplicationTuple) : Option EqState :=
  match getClass s cid with
  | none => none
  | some c =>
    if apt ∈ c.app_tuples then
      (if ft ∈ c.form_tuples then some s else add_form_tuple s cid ft)
    else if ft ∈ c.form_tuples then add_app_tuple s cid apt
    else none

/-- `EquivalenceClass.merge` (src/ob.py lines 190-202): class `c1`
(self) absorbs class `c2` (other_eq_class); membership sets are
unioned, all of `c2`'s keys are repointed to `c1`, and `c2` is removed
from `eq_classes`. -/
def mergeOp (s : EqState) (c1 c2 : Nat) : Option EqState :=
  match getClass s c2 with
  | none => none
  | some o =>
    let s1 := updateClass s c1
      (fun c => { form_tuples := o.form_tuples.foldl addToSet c.form_tuples,
                  app_tuples := o.app_tuples.foldl addToSet c.app_tuples })
    let s2 := { s1 with
      form_tuple_classes :=
        o.form_tuples.foldl (fun m ft => setA m ft c1) s1.form_tuple_classes,
      app_tuple_classes :=
        o.app_tuples.foldl (fun m a => setA m a c1) s1.app_tuple_classes }
    some { s2 with eq_classes := s2.eq_classes.filter (fun p => p.1 ≠ c2) }

/-- Registering the member tuples of a freshly constructed class
(the `for ft in form_tuples: self.add_form_tuple(ft)` loops of
`__init__`, src/ob.py lines 143-144): each tuple must be globally
unclaimed; returns the extended key map and the built membership set. -/
def addTuples {α : Type} [DecidableEq α] (cid : Nat) :
    List α → List (α × Nat) → List α → Option (List (α × Nat) × List α)
  | [], m, acc => some (m, acc)
  | x :: xs, m, acc =>
    if (lookupA m x).isSome then none
    else addTuples cid xs (setA m x cid) (addToSet acc x)

/-- `EquivalenceClass.__init__` (src/ob.py lines 139-155). With
`eqId = none` the new class takes id `next_eq_id` (incremented);
with an explicit id (the `load_summary` path) `next_eq_id` is bumped
to `max next_eq_id (id + 1)`; the `assert eq_id not in eq_classes`
failure is `none`. -/
def create (s : EqState) (fts : List FormulationTuple)
    (ats : List ApplicationTuple) (eqId : Option Nat) : Option EqState :=
  let cid := eqId.getD s.next_eq_id
  let next' := match eqId with
    | none => s.next_eq_id + 1
    | some i => max s.next_eq_id (i + 1)
  match addTuples cid fts s.form_tuple_classes [] with
  | none => none
  | some (fm, fset) =>
    match addTuples cid ats s.app_tuple_classes [] with
    | none => none
    | some (am, aset) =>
      if (lookupA s.eq_classes cid).isSome then none
      else some ⟨s.eq_classes ++ [(cid, ⟨fset, aset⟩)], next', fm, am⟩

/-- `EquivalenceClass.get` for a formulation tuple (src/ob.py line 262). -/
def get_ft (s : EqState) (ft : FormulationTuple) : Option Nat :=
  lookupA s.form_tuple_classes ft

/-- `EquivalenceClass.get` for an application tuple (src/ob.py line 264). -/
def get_at (s : EqState) (apt : ApplicationTuple) : Option Nat :=
  lookupA s.app_tuple_classes apt

/-- `EquivalenceClass.add` (src/ob.py lines 225-248), after key
derivation: ingest one (formulation key, application key) record. -/
def addRec (s : EqState) (ft : FormulationTuple) (apt : ApplicationTuple) :
    Option EqState :=
  match get_ft s ft, get_at s apt with
  | none, none => create s [ft] [apt] none
  | some fc, none => appendOp s fc ft apt
  | none, some ac => appendOp s ac ft apt
  | some fc, some ac =>
    if fc = ac then appendOp s fc ft apt
    else
      match mergeOp s fc ac with
      | none => none
      | some s1 => appendOp s1 fc ft apt

end EquivalenceClass

/-- One product-file record after key derivation. -/
abbrev OBRecord := FormulationTuple × ApplicationTuple

/-- Ingesting a stream of records starting from state `s`
(the `EquivalenceClass.add(row)` loop of `summarize`,
src/ob.py lines 335-336); a raised exception (`none`) aborts the run. -/
def ingestFrom (s : EqState) : List OBRecord → Option EqState
  | [] => some s
  | r :: more =>
    match EquivalenceClass.addRec s r.1 r.2 with
    | none => none
    | some s1 => ingestFrom s1 more

/-- Ingesting a stream of records into an initially empty registry. -/
def ingestAll (rs : List OBRecord) : Option EqState :=
  ingestFrom EquivalenceClass.emptyState rs

/-! ## Partition language for the registry claims -/

/-- A key of either kind. -/
inductive RegKey where
  | ft : FormulationTuple → RegKey
  | apt : ApplicationTuple → RegKey
deriving DecidableEq

/-- The class currently owning a key (`EquivalenceClass.get`). -/
def owner (s : EqState) : RegKey → Option Nat
  | .ft f => lookupA s.form_tuple_classes f
  | .apt a => lookupA s.app_tuple_classes a

/-- Two keys are co-members of one live class. -/
def sameClass (s : EqState) (k k' : RegKey) : Prop :=
  ∃ i, owner s k = some i ∧ owner s k' = some i

/-- The key appears on the given input record. -/
def touches (r : OBRecord) (k : RegKey) : Prop :=
  k = .ft r.1 ∨ k = .apt r.2

/-- Two keys co-occur on the same input record of the stream. -/
def cooccur (rs : List OBRecord) (k k' : RegKey) : Prop :=
  ∃ r ∈ rs, touches r k ∧ touches r k'

/-- Membership of a key in a class's membership sets. -/
def inClass (c : EqClassData) : RegKey → Prop
  | .ft f => f ∈ c.form_tuples
  | .apt a => a ∈ c.app_tuples

/-! ## The reachability invariant of the registry -/

/-- The invariant connecting a registry state to the stream of records
it was built from: the key → class dictionaries and the classes'
membership sets are mutually consistent, the dictionaries' domains are
exactly the ingested keys, live class ids are distinct and below
`next_eq_id`, membership sets are duplicate-free, all co-members of a
class are connected by the transitive closure of record co-occurrence,
and the two keys of every ingested record share an owner. -/
structure Good (rs : List OBRecord) (s : EqState) : Prop where
  ft_owner : ∀ f i, lookupA s.form_tuple_classes f = some i →
      ∃ c, lookupA s.eq_classes i = some c ∧ f ∈ c.form_tuples
  at_owner : ∀ a i, lookupA s.app_tuple_classes a = some i →
      ∃ c, lookupA s.eq_classes i = some c ∧ a ∈ c.app_tuples
  ft_mem : ∀ i c, lookupA s.eq_classes i = some c →
      ∀ f ∈ c.form_tuples, lookupA s.form_tuple_classes f = some i
  at_mem : ∀ i c, lookupA s.eq_classes i = some c →
      ∀ a ∈ c.app_tuples, lookupA s.app_tuple_classes a = some i
  ft_dom : ∀ f, (lookupA s.form_tuple_classes f).isSome ↔ ∃ r ∈ rs, r.1 = f
  at_dom : ∀ a, (lookupA s.app_tuple_classes a).isSome ↔ ∃ r ∈ rs, r.2 = a
  lt_next : ∀ p ∈ s.eq_classes, p.1 < s.next_eq_id
  keys_nodup : (s.eq_classes.map Prod.fst).Nodup
  mem_nodup : ∀ i c, lookupA s.eq_classes i = some c →
      c.form_tuples.Nodup ∧ c.app_tuples.Nodup
  conn : ∀ i c, lookupA s.eq_classes i = some c →
      ∀ k k', inClass c k → inClass c k' →
        Relation.TransGen (cooccur rs) k k'
  rec_owned : ∀ r ∈ rs, ∃ i,
      owner s (.ft r.1) = some i ∧ owner s (.apt r.2) = some i

/-- The state produced by `create` on two fresh keys. -/
def createdState (s : EqState) (ft : FormulationTuple)
    (apt : ApplicationTuple) : EqState :=
  ⟨s.eq_classes ++ [(s.next_eq_id, ⟨[ft], [apt]⟩)],
   s.next_eq_id + 1,
   setA s.form_tuple_classes ft s.next_eq_id,
   setA s.app_tuple_classes apt s.next_eq_id⟩

/-- The state produced by appending a fresh application key to the
class `fc` that already owns the record's formulation key. -/
def appATState (s : EqState) (fc : Nat) (apt : ApplicationTuple) : EqState :=
  ⟨s.eq_classes.map (fun p => if p.1 = fc then
      (p.1, ⟨p.2.form_tuples, addToSet p.2.app_tuples apt⟩) else p),
   s.next_eq_id,
   s.form_tuple_classes,
   setA s.app_tuple_classes apt fc⟩

/-- The state produced by appending a fresh formulation key to the
class `ac` that already owns the record's application key. -/
def appFTState (s : EqState) (ac : Nat) (ft : FormulationTuple) : EqState :=
  ⟨s.eq_classes.map (fun p => if p.1 = ac then
      (p.1, ⟨addToSet p.2.form_tuples ft, p.2.app_tuples⟩) else p),
   s.next_eq_id,
   setA s.form_tuple_classes ft ac,
   s.app_tuple_classes⟩

/-- The state produced by merging class `ac` (with data `o`) into
class `fc` and discarding `ac`. -/
def mergedState (s : EqState) (fc ac : Nat) (o : EqClassData) : EqState :=
  ⟨(s.eq_classes.map (fun p => if p.1 = fc then
      (p.1, ⟨o.form_tuples.foldl addToSet p.2.form_tuples,
             o.app_tuples.foldl addToSet p.2.app_tuples⟩) else p)).filter
      (fun p => p.1 ≠ ac),
   s.next_eq_id,
   o.form_tuples.foldl (fun m x => setA m x fc) s.form_tuple_classes,
   o.app_tuples.foldl (fun m x => setA m x fc) s.app_tuple_classes⟩

/-- Monotone evolution facts between a state and a later state:
`next_eq_id` never decreases, a dead (absorbed or never-allocated) id
below `next_eq_id` stays dead, and a class that survives keeps its id
and only gains members. -/
def StateMono (s s' : EqState) : Prop :=
  s.next_eq_id ≤ s'.next_eq_id ∧
  (∀ i, i < s.next_eq_id → lookupA s.eq_classes i = none →
      lookupA s'.eq_classes i = none) ∧
  (∀ i c', i < s.next_eq_id → lookupA s'.eq_classes i = some c' →
      ∃ c, lookupA s.eq_classes i = some c ∧
        (∀ f ∈ c.form_tuples, f ∈ c'.form_tuples) ∧
        (∀ a ∈ c.app_tuples, a ∈ c'.app_tuples))

/-! ## Serialization (src/ob.py lines 204-209 and 347-356) -/

/-- Insertion into a sorted list (kernel-evaluable sorting, used to
model Python's `sorted`). -/
def insertLe {α : Type} (le : α → α → Bool) (a : α) : List α → List α
  | [] => [a]
  | b :: bs => if le a b then a :: b :: bs else b :: insertLe le a bs

/-- Insertion sort, modelling Python's `sorted` (for the claims only
the underlying permutation matters). -/
def sortLe {α : Type} (le : α → α → Bool) : List α → List α
  | [] => []
  | a :: as => insertLe le a (sortLe le as)

/-- Lexicographic comparison of character lists by code point
(Python's string ordering). -/
def charListLt : List Char → List Char → Bool
  | [], [] => false
  | [], _ :: _ => true
  | _ :: _, [] => false
  | a :: as, b :: bs =>
    if a.toNat < b.toNat then true
    else if b.toNat < a.toNat then false
    else charListLt as bs

def strLtB (a b : String) : Bool := charListLt a.data b.data

def strLeB (a b : String) : Bool := strLtB a b || (a == b)

/-- Python's tuple comparison on `FormulationTuple`s. -/
def ftLeB (a b : FormulationTuple) : Bool :=
  strLtB a.ingredient b.ingredient ||
    (a.ingredient == b.ingredient &&
      (strLtB a.form_route b.form_route ||
        (a.form_route == b.form_route && strLeB a.strength b.strength)))

/-- Python's tuple comparison on `ApplicationTuple`s. -/
def atLeB (a b : ApplicationTuple) : Bool :=
  strLtB a.appl_no b.appl_no ||
    (a.appl_no == b.appl_no && strLeB a.product_no b.product_no)

/-- One serialized class record: `{eq_id, form_tuples, app_tuples}`. -/
abbrev SummaryRec := Nat × List FormulationTuple × List ApplicationTuple

/-- `EquivalenceClass.to_dict` (src/ob.py lines 204-209): the class id
with its membership sets as sorted lists. -/
def to_dict (p : Nat × EqClassData) : SummaryRec :=
  (p.1, sortLe ftLeB p.2.form_tuples, sortLe atLeB p.2.app_tuples)

/-- The dumped registry: `to_dict` of every live class, in
`eq_classes` (insertion) order, as written by `summarize`
(src/ob.py lines 339-343). -/
def summaryOf (s : EqState) : List SummaryRec :=
  s.eq_classes.map to_dict

/-- The class-reloading loop of `load_summary` (src/ob.py lines
349-356), starting from registry state `s`: each stored record is
re-created as a class with its stored id. -/
def loadFrom (s : EqState) : List SummaryRec → Option EqState
  | [] => some s
  | r :: more =>
    match EquivalenceClass.create s r.2.1 r.2.2 (some r.1) with
    | none => none
    | some s1 => loadFrom s1 more

/-- `load_summary`'s reconstruction of the registry into an empty
state. -/
def load_summary (recs : List SummaryRec) : Option EqState :=
  loadFrom EquivalenceClass.emptyState recs

/-- The id of the first summary record containing a given formulation
key. -/
def ownOfF : List SummaryRec → FormulationTuple → Option Nat
  | [], _ => none
  | r :: more, f => if f ∈ r.2.1 then some r.1 else ownOfF more f

/-- The id of the first summary record containing a given application
key. -/
def ownOfA : List SummaryRec → ApplicationTuple → Option Nat
  | [], _ => none
  | r :: more, a => if a ∈ r.2.2 then some r.1 else ownOfA more a

/-! ## String utilities for the parsing layer -/

def splitOnCharAux (c : Char) : List Char → List Char → List (List Char)
  | [], acc => [acc.reverse]
  | x :: xs, acc =>
    if x = c then acc.reverse :: splitOnCharAux c xs []
    else splitOnCharAux c xs (x :: acc)

/-- Split a character list at every occurrence of `c` (Python
`str.split(c)`: empty pieces are kept). -/
def splitOnChar (c : Char) (l : List Char) : List (List Char) :=
  splitOnCharAux c l []

/-- `re.split(r";\s*", text)`: split at each `;` and strip the
whitespace that follows it. -/
def splitSemiWs (s : String) : List String :=
  match splitOnChar ';' s.data with
  | [] => []
  | h :: t =>
    (⟨h⟩ : String) :: t.map (fun l => ⟨l.dropWhile Char.isWhitespace⟩)

/-- `re.sub("; ", ";", text)`: non-overlapping left-to-right
replacement of every `"; "` with `";"`. -/
def replSemiSpace : List Char → List Char
  | [] => []
  | ';' :: ' ' :: rest => ';' :: replSemiSpace rest
  | x :: rest => x :: replSemiSpace rest

/-- Index of the first occurrence of `needle` in the list, if any. -/
def findSubIdx (needle : List Char) : List Char → Option Nat
  | [] => if needle.isEmpty then some 0 else none
  | x :: xs =>
    if needle.isPrefixOf (x :: xs) then some 0
    else (findSubIdx needle xs).map (· + 1)

/-- `re.sub(r" \*\*Federal Register.*$", "", text)`: truncate at the
first occurrence of the literal marker. -/
def stripFedReg (s : String) : String :=
  match findSubIdx " **Federal Register".data s.data with
  | some i => ⟨s.data.take i⟩
  | none => s

/-- Length of the leading whitespace run. -/
def wsRun : List Char → Nat
  | [] => 0
  | x :: xs => if x.isWhitespace then wsRun xs + 1 else 0

/-- Length of the leading digit run. -/
def digitRun : List Char → Nat
  | [] => 0
  | x :: xs => if x.isDigit then digitRun xs + 1 else 0

/-- All positions of character `c` (ascending). -/
def charPositions (c : Char) (l : List Char) : List Nat :=
  (List.range l.length).filter (fun i => l[i]? = some c)

/-- Concatenate with a separator (Python `sep.join`). -/
def joinSep (sep : String) : List String → String
  | [] => ""
  | [x] => x
  | x :: y :: xs => x ++ sep ++ joinSep sep (y :: xs)

/-! ## parse_strengths (src/ob.py lines 74-97) -/

/-- The backtracking search of Python's
`re.search(r"^(.*;.*?)\s*\((.*;.*)\)", text)` at one candidate end
position `p` of group 1: a maximal whitespace run must be followed by
`(`, and the capture of group 2 runs to the last `)` of the string,
which must have a `;` strictly between the `(` and that `)`. -/
def parenInnerAt (s : List Char) (p : Nat) : Option (Nat × Nat) :=
  let w := wsRun (s.drop p)
  let q := p + w
  if s[q]? = some '(' then
    match (charPositions ')' s).getLast? with
    | none => none
    | some d =>
      if (charPositions ';' s).any (fun cp => decide (q < cp) &&
          decide (cp < d))
      then some (q, d)
      else none
  else none

/-- The backtracking priority of the regex: the first `.*` is greedy
(largest `;` position for group 1's mandatory `;`), the following
`.*?` lazy (smallest extension `b`). Returns (end of group 1, index
of `(`, index of the captured `)`). -/
def parenFind (s : List Char) : Option (Nat × Nat × Nat) :=
  (charPositions ';' s).reverse.findSome? (fun a =>
    (List.range (s.length - a)).findSome? (fun b =>
      (parenInnerAt s (a + 1 + b)).map (fun qd => (a + 1 + b, qd.1, qd.2))))

/-- The two captured groups of the parenthesised-strength regex, when
it matches. -/
def parse_paren (text : String) : Option (String × String) :=
  (parenFind text.data).map (fun pqd =>
    (⟨text.data.take pqd.1⟩,
     ⟨(text.data.drop (pqd.2.1 + 1)).take (pqd.2.2 - pqd.2.1 - 1)⟩))

/-- Transpose of `zip(*rows)` (truncating to the shortest row). -/
def zipTranspose (ls : List (List String)) : List (List String) :=
  match ls.map List.length with
  | [] => []
  | x :: xs =>
    let m := xs.foldl min x
    (List.range m).map (fun i => ls.map (fun l => l.getD i ""))

/-- Python `range(0, n, step)`. -/
def rangeStep (n step : Nat) : List Nat :=
  if step = 0 then []
  else (List.range ((n + step - 1) / step)).map (· * step)

/-- `parse_strengths` (src/ob.py lines 74-97): segment a strength text
into `exp_len` strength tokens; `none` is the RuntimeError (or the
ZeroDivisionError on `exp_len = 0`). -/
def parse_strengths (text0 : String) (exp_len : Nat) : Option (List String) :=
  let text := stripFedReg text0
  if text = "250.0MG;12.5MG;75.0MG;EQ 250MG BASE,N/A,N/A,N/A; " ++
      "N/A,12.5MG,75MG,50MG"
  then some ["250MG", "12.5MG", "75MG", "50MG"]
  else
    match parse_paren text with
    | some (m1, m2) =>
      some (((splitSemiWs m1).zip (splitSemiWs m2)).map
        (fun ab => ab.1 ++ " (" ++ ab.2 ++ ")"))
    | none =>
      let elts := splitSemiWs text
      if elts.length = exp_len ∨ exp_len = 1 then some elts
      else
        let relts := (zipTranspose (elts.map (fun e =>
          (splitOnChar ',' e.data).map (fun l => (⟨l⟩ : String))))).map
            (joinSep ", ")
        if relts.length = exp_len then some relts
        else if exp_len ≠ 0 ∧ elts.length % exp_len = 0 then
          some ((rangeStep elts.length (elts.length / exp_len)).map
            (fun i => joinSep ", " ((elts.drop i).take exp_len)))
        else none

/-- Python tuple comparison on (ingredient, strength) string pairs. -/
def pairLeB (a b : String × String) : Bool :=
  strLtB a.1 b.1 || (a.1 == b.1 && strLeB a.2 b.2)

/-- `form_tuple` (src/ob.py lines 49-72) on the three text fields of a
row: normalize the form/route, split the ingredient list, parse the
strengths, replicate a single ingredient to the number of strengths,
fail (AssertionError, `none`) on a length mismatch, sort the
(ingredient, strength) pairs together, and join the columns. -/
def form_tuple (ingredientF dfRoute strengthF : String) :
    Option FormulationTuple :=
  let form_route : String := ⟨replSemiSpace dfRoute.data⟩
  let ingredients := splitSemiWs ingredientF
  match parse_strengths strengthF ingredients.length with
  | none => none
  | some strengths =>
    let ingredients := if ingredients.length = 1
      then List.replicate strengths.length (ingredients.headD "")
      else ingredients
    if ingredients.length ≠ strengths.length then none
    else
      let pairs := sortLe pairLeB (ingredients.zip strengths)
      some ⟨joinSep "; " (pairs.map Prod.fst), form_route,
            joinSep "; " (pairs.map Prod.snd)⟩

/-! ## Form/route matching (src/match_ndc_ob.py lines 45-73) -/

/-- `text.split(';', 1)`: split at the first `;` only; `none` models
the unpacking ValueError when the text has no `;`. -/
def splitFirstSemi (s : String) : Option (String × String) :=
  match findSubIdx [';'] s.data with
  | none => none
  | some idx => some (⟨s.data.take idx⟩, ⟨s.data.drop (idx + 1)⟩)

/-- A `\w` word character (ASCII letters, digits, underscore). -/
def isWordChar (c : Char) : Bool := c.isAlphanum || c = '_'

def wordsAux : List Char → List Char → List (List Char)
  | [], acc => if acc.isEmpty then [] else [acc.reverse]
  | x :: xs, acc =>
    if isWordChar x then wordsAux xs (x :: acc)
    else if acc.isEmpty then wordsAux xs []
    else acc.reverse :: wordsAux xs []

/-- `re.findall(r"\w+", text)`. -/
def findallWords (s : String) : List String :=
  (wordsAux s.data []).map (fun l => ⟨l⟩)

/-- The fixed token-synonym table `form_route_map`
(src/match_ndc_ob.py lines 60-70). -/
def form_route_map (x : String) : String :=
  if x = "IV" then "INJECTION"
  else if x = "INTRAVENOUS" then "INJECTION"
  else if x = "INJECTABLE" then "INJECTION"
  else if x = "SC" then "SUBCUTANEOUS"
  else if x = "PELLETS" then "PELLET"
  else if x = "INHALANT" then "INHALATION"
  else if x = "CAPSULE" then "TABLET"
  else if x = "FILM" then "PATCH"
  else if x = "LIQUID" then "SOLUTION"
  else x

/-- `form_route_words` (src/match_ndc_ob.py lines 72-73); the Python
set is modelled as the token list, of which only membership is used. -/
def form_route_words (text : String) : List String :=
  (findallWords text).map form_route_map

/-- `equivalent_form` (src/match_ndc_ob.py lines 45-58). -/
def equivalent_form (ob_fr ndc_fr : String) : Option Bool :=
  match splitFirstSemi ob_fr, splitFirstSemi ndc_fr with
  | some obp, some ndcp =>
    let ob_form := form_route_words obp.1
    let ob_route := form_route_words obp.2
    let ndc_form := form_route_words ndcp.1
    let ndc_route := form_route_words ndcp.2
    some (
      if "INJECTION" ∈ ob_route ∧ "INJECTION" ∈ ndc_route then true
      else if "INJECTION" ∈ ob_route ∧ "INJECTION" ∈ ndc_form then true
      else if "INHALATION" ∈ ob_route ∧ "INHALATION" ∈ ndc_form then true
      else if ¬ ob_route.any (fun w => decide (w ∈ ndc_route)) then false
      else if ¬ ob_form.any (fun w => decide (w ∈ ndc_form)) then false
      else true)
  | _, _ => none

/-! ## Ingredient matching (src/match_ndc_ob.py lines 75-98) -/

/-- `ing.split(" ")` (single-space split, empty pieces kept). -/
def splitSpace (s : String) : List String :=
  (splitOnChar ' ' s.data).map (fun l => (⟨l⟩ : String))

/-- The filtering loop of `match_ingredient`: each candidate carries
its not-yet-matched word suffix and the original key. -/
def matchGo : List String → List (List String × String) → Option String
  | [], _ => none
  | w :: ws, ms =>
    let ms' := ms.filter (fun m =>
      match m.1 with
      | [] => false
      | x :: _ => x = w)
    match ms' with
    | [m] => some m.2
    | [] => none
    | _ => matchGo ws (ms'.map (fun m => (m.1.tail, m.2)))

/-- `match_ingredient` (src/match_ndc_ob.py lines 91-98), on the list
of dictionary keys. -/
def match_ingredient (ing : String) (keys : List String) : Option String :=
  matchGo (splitSpace ing) (keys.map (fun k => (splitSpace k, k)))

/-- `dict(ob_comps)`: first-occurrence key order, last value wins. -/
def dictOf (l : List (String × String)) : List (String × String) :=
  l.foldl (fun acc p =>
    if acc.any (fun q => q.1 == p.1) then
      acc.map (fun q => if q.1 = p.1 then (q.1, p.2) else q)
    else acc ++ [p]) []

/-- `ob_data.pop(k)`'s removal of the key. -/
def eraseKey (d : List (String × String)) (k : String) :
    List (String × String) :=
  d.filter (fun q => q.1 ≠ k)

/-! ## Strength matching (src/match_ndc_ob.py lines 101-131) -/

/-- Value of a digit string. -/
def digitsVal (l : List Char) : Nat :=
  l.foldl (fun n c => n * 10 + (c.toNat - 48)) 0

/-- Value of a decimal-number token (digits, optionally a dot and
digits), over `ℚ` (modelling Python float arithmetic exactly on the
decimal inputs exercised). -/
def decToRat (l : List Char) : ℚ :=
  match splitOnChar '.' l with
  | [a] => (digitsVal a : ℚ)
  | [a, b] => (digitsVal a : ℚ) + (digitsVal b : ℚ) / (10 : ℚ) ^ b.length
  | _ => 0

/-- `float(text)` on a plain decimal literal; `none` models the
ValueError on other shapes. -/
def parseDec (s : String) : Option ℚ :=
  match splitOnChar '.' s.data with
  | [a] =>
    if ¬ a.isEmpty ∧ a.all Char.isDigit then some (digitsVal a : ℚ)
    else none
  | [a, b] =>
    if ¬ (a ++ b).isEmpty ∧ (a ++ b).all Char.isDigit then
      some ((digitsVal a : ℚ) + (digitsVal b : ℚ) / (10 : ℚ) ^ b.length)
    else none
  | _ => none

/-- A match of `(?:\d*\.)?\d+` anchored at the head of the list:
its length, when it matches. -/
def numAt (l : List Char) : Option Nat :=
  let r := digitRun l
  if l[r]? = some '.' ∧ 1 ≤ digitRun (l.drop (r + 1)) then
    some (r + 1 + digitRun (l.drop (r + 1)))
  else if 1 ≤ r then some r
  else none

/-- The scan of `re.finditer(r"(?<!/)" + num_re, text)`: leftmost
non-overlapping number matches whose preceding character is not `/`. -/
def scanNumsF : Nat → List Char → Option Char → List (List Char)
  | 0, _, _ => []
  | _ + 1, [], _ => []
  | fuel + 1, c :: cs, prev =>
    if prev = some '/' then scanNumsF fuel cs (some c)
    else
      match numAt (c :: cs) with
      | some n =>
        ((c :: cs).take n) ::
          scanNumsF fuel ((c :: cs).drop n) (((c :: cs).take n).getLast?)
      | none => scanNumsF fuel cs (some c)

/-- All numbers found in an Orange-Book strength text, with their
matched text and value. -/
def obNums (s : String) : List (String × ℚ) :=
  (scanNumsF (s.data.length + 1) s.data none).map
    (fun l => ((⟨l⟩ : String), decToRat l))

/-- `re.search(num_re, unit)`: the first number in the unit text. -/
def scanFirstNum : List Char → Option (List Char)
  | [] => none
  | c :: cs =>
    match numAt (c :: cs) with
    | some n => some ((c :: cs).take n)
    | none => scanFirstNum cs

/-- `re.match(f"^({num_re}).*/({num_re})", text)`: a number anchored
at the start and, after a greedy gap, a `/` followed by a number;
returns the values of the two groups. -/
def ratioMatch (s : String) : Option (ℚ × ℚ) :=
  let l := s.data
  match numAt l with
  | none => none
  | some n1 =>
    match ((charPositions '/' l).filter (fun p =>
        decide (n1 ≤ p) && (numAt (l.drop (p + 1))).isSome)).getLast? with
    | none => none
    | some p =>
      match numAt (l.drop (p + 1)) with
      | none => none
      | some n2 =>
        some (decToRat (l.take n1), decToRat ((l.drop (p + 1)).take n2))

/-- `math.isclose(a, b, rel_tol = tol)` (with the default absolute
tolerance 0). -/
def isclose (a b tol : ℚ) : Bool :=
  decide (|a - b| ≤ tol * max |a| |b|)

/-- The body of `equivalent_strength` after the two floats of the NDC
side are available: `nS` the NDC strength, `nRatio` the NDC strength
divided by any denominator embedded in its unit. -/
def equivStrengthCore (ob ndcS ndcU : String) (nS nRatio : ℚ) :
    Option Bool :=
  if (obNums ob).any (fun sq =>
      decide (sq.1 = ndcS)
      || isclose sq.2 nS ((1 : ℚ) / 10 ^ 9)
      || decide (sq.2 = nRatio)
      || (((findSubIdx "GM".data ob.data).isSome || (findSubIdx "ug".data ndcU.data).isSome) &&
          (isclose (sq.2 * 1000) nRatio ((1 : ℚ) / 10 ^ 4) ||
           isclose (sq.2 * 1000) nS ((1 : ℚ) / 10 ^ 4)))
      || ("g/".data.isPrefixOf ndcU.data &&
          isclose (sq.2 / 1000) nS ((1 : ℚ) / 10 ^ 4))
      || ((findSubIdx "%".data ob.data).isSome &&
          (isclose (sq.2 * 10) nRatio ((1 : ℚ) / 10 ^ 4) ||
           isclose (sq.2 * 10) nS ((1 : ℚ) / 10 ^ 4))))
  then some true
  else
    match ratioMatch ob with
    | some xy =>
      if xy.2 = 0 then none
      else some (isclose (xy.1 / xy.2) nRatio ((1 : ℚ) / 10 ^ 4))
    | none => some false

/-- `equivalent_strength` (src/match_ndc_ob.py lines 101-131); the
outer `none` models the float ValueError / ZeroDivisionError. -/
def equivalent_strength (obS : Option String) (ndcS ndcU : String) :
    Option Bool :=
  match obS with
  | none => some false
  | some ob =>
    match parseDec ndcS with
    | none => none
    | some nS =>
      match scanFirstNum ndcU.data with
      | some dl =>
        if decToRat dl = 0 then none
        else equivStrengthCore ob ndcS ndcU nS (nS / decToRat dl)
      | none => equivStrengthCore ob ndcS ndcU nS nS

/-- The per-ingredient loop of `equivalent_composition`
(src/match_ndc_ob.py lines 75-89): `some (some d)` is normal
completion with leftover pool `d`, `some none` an early `return
False`, `none` a raised exception. -/
def compLoop : List (String × String × String) → List (String × String) →
    Option (Option (List (String × String)))
  | [], d => some (some d)
  | (ing, st, un) :: rest, d =>
    match match_ingredient ing (d.map Prod.fst) with
    | none => some none
    | some k =>
      if k = "TAVABOROLE" ∧ lookupA d k = some "5%" ∧ st = "43.5" then
        compLoop rest (eraseKey d k)
      else
        match equivalent_strength (lookupA d k) st un with
        | none => none
        | some true => compLoop rest (eraseKey d k)
        | some false => some none

/-- `equivalent_composition` (src/match_ndc_ob.py lines 75-89). -/
def equivalent_composition (ob_comps : List (String × String))
    (ndc_comps : List (String × String × String)) : Option Bool :=
  match compLoop ndc_comps (dictOf ob_comps) with
  | none => none
  | some none => some false
  | some (some d) => some d.isEmpty

/-! ## Spec-side ingredient matching (modelled from the spec's words,
for the C8 refinement) -/

/-- Spec-side candidate set: the keys whose first `j` whitespace-split
words exist and agree with the B-side word list `ws`. -/
def specFilter (ws : List String) (j : Nat) (keys : List String) :
    List String :=
  keys.filter (fun k =>
    decide (j ≤ (splitSpace k).length) &&
    decide ((splitSpace k).take j = ws.take j))

/-- Spec-side narrowing loop: having agreed on the first `j` words with
`n` B-side words left, require agreement on the first `j + 1` words;
match when exactly one candidate remains, fail on zero, recurse
otherwise, failing when the B-side words are exhausted. -/
def specGo (ws : List String) (keys : List String) (j : Nat) :
    Nat → Option String
  | 0 => none
  | n + 1 =>
    match specFilter ws (j + 1) keys with
    | [k] => some k
    | [] => none
    | _ => specGo ws keys (j + 1) n

/-- The spec's prefix-disambiguation procedure, worded as in the spec:
narrow the candidates by agreement on the first word, then the first
two, and so on. -/
def spec_match_ingredient (ing : String) (keys : List String) :
    Option String :=
  specGo (splitSpace ing) keys 0 (splitSpace ing).length

/-! ## Association-list lemmas -/

theorem lookupA_setA {α β : Type} [DecidableEq α] (l : List (α × β)) (a : α)
    (b : β) (x : α) :
    lookupA (setA l a b) x = if x = a then some b else lookupA l x := by
  induction l with
  | nil =>
    by_cases hx : x = a
    · subst hx; simp [setA, lookupA]
    · have hax : ¬ a = x := fun h => hx h.symm
      simp [setA, lookupA, hx, hax]
  | cons p ps ih =>
    by_cases hp : p.1 = a
    · subst hp
      by_cases hx : x = p.1
      · subst hx; simp [setA, lookupA]
      · have hax : ¬ p.1 = x := fun h => hx h.symm
        simp [setA, lookupA, hx, hax]
    · by_cases hx : p.1 = x
      · have hxa : ¬ x = a := fun h => hp (hx.trans h)
        simp [setA, lookupA, hp, hx, hxa]
      · simp [setA, lookupA, hp, hx, ih]

theorem lookupA_append_none {α β : Type} [DecidableEq α] {l1 : List (α × β)}
    (l2 : List (α × β)) {x : α} (h : lookupA l1 x = none) :
    lookupA (l1 ++ l2) x = lookupA l2 x := by
  induction l1 with
  | nil => simp [lookupA]
  | cons p ps ih =>
    by_cases hp : p.1 = x
    · simp [lookupA, hp] at h
    · simp only [lookupA, hp, if_false] at h ⊢
      simpa [lookupA, hp] using ih h

theorem lookupA_append_some {α β : Type} [DecidableEq α] {l1 : List (α × β)}
    (l2 : List (α × β)) {x : α} {v : β} (h : lookupA l1 x = some v) :
    lookupA (l1 ++ l2) x = some v := by
  induction l1 with
  | nil => simp [lookupA] at h
  | cons p ps ih =>
    by_cases hp : p.1 = x
    · simp only [lookupA, hp, if_true] at h ⊢; exact h
    · simp only [lookupA, hp, if_false] at h ⊢
      exact ih h

theorem lookupA_mem {α β : Type} [DecidableEq α] {l : List (α × β)} {x : α}
    {v : β} (h : lookupA l x = some v) : (x, v) ∈ l := by
  induction l with
  | nil => simp [lookupA] at h
  | cons p ps ih =>
    by_cases hp : p.1 = x
    · simp only [lookupA, hp, if_true, Option.some.injEq] at h
      cases p with
      | mk a b =>
        simp only at hp h
        subst hp; subst h
        exact List.mem_cons_self _ _
    · simp only [lookupA, hp, if_false] at h
      exact List.mem_cons_of_mem _ (ih h)

theorem lookupA_none_iff {α β : Type} [DecidableEq α] (l : List (α × β))
    (x : α) : lookupA l x = none ↔ x ∉ l.map Prod.fst := by
  induction l with
  | nil => simp [lookupA]
  | cons p ps ih =>
    by_cases hp : p.1 = x
    · simp [lookupA, hp]
    · simp only [lookupA, hp, if_false, List.map_cons, List.mem_cons, ih]
      constructor
      · rintro h hmem
        rcases hmem with h1 | h2
        · exact hp h1.symm
        · exact h h2
      · intro h h2
        exact h (Or.inr h2)

theorem mem_addToSet {α : Type} [DecidableEq α] (l : List α) (a x : α) :
    x ∈ addToSet l a ↔ x ∈ l ∨ x = a := by
  unfold addToSet
  by_cases h : a ∈ l
  · simp only [h, if_true]
    constructor
    · exact Or.inl
    · rintro (hx | rfl) <;> [exact hx; exact h]
  · simp [h]

theorem addToSet_nodup {α : Type} [DecidableEq α] {l : List α} (a : α)
    (h : l.Nodup) : (addToSet l a).Nodup := by
  unfold addToSet
  by_cases ha : a ∈ l
  · simpa [ha]
  · rw [if_neg ha]
    refine List.Nodup.append h (List.nodup_singleton a) ?_
    intro x hx hxa
    rw [List.mem_singleton] at hxa
    subst hxa
    exact ha hx

theorem mem_foldl_addToSet {α : Type} [DecidableEq α] (l2 l1 : List α)
    (x : α) : x ∈ l2.foldl addToSet l1 ↔ x ∈ l1 ∨ x ∈ l2 := by
  induction l2 generalizing l1 with
  | nil => simp
  | cons a as ih =>
    simp only [List.foldl_cons, ih, mem_addToSet, List.mem_cons]
    tauto

theorem foldl_addToSet_nodup {α : Type} [DecidableEq α] (l2 : List α)
    {l1 : List α} (h : l1.Nodup) : (l2.foldl addToSet l1).Nodup := by
  induction l2 generalizing l1 with
  | nil => simpa
  | cons a as ih => exact ih (addToSet_nodup a h)

theorem lookupA_foldl_setA {α : Type} [DecidableEq α] (l : List α)
    (m : List (α × Nat)) (cid : Nat) (y : α) :
    lookupA (l.foldl (fun m' x => setA m' x cid) m) y =
      if y ∈ l then some cid else lookupA m y := by
  induction l generalizing m with
  | nil => simp
  | cons a as ih =>
    simp only [List.foldl_cons, ih, lookupA_setA, List.mem_cons]
    by_cases hy : y ∈ as
    · simp [hy]
    · by_cases hya : y = a <;> simp [hy, hya]

theorem lookupA_map_update {β : Type} (l : List (Nat × β)) (cid : Nat)
    (f : β → β) (i : Nat) :
    lookupA (l.map (fun p => if p.1 = cid then (p.1, f p.2) else p)) i =
      if i = cid then (lookupA l i).map f else lookupA l i := by
  induction l with
  | nil => simp [lookupA]
  | cons p ps ih =>
    by_cases hp : p.1 = cid
    · by_cases hi : i = cid
      · have h1 : p.1 = i := hp.trans hi.symm
        simp [lookupA, hp, hi, h1, ih]
      · have h1 : ¬ p.1 = i := fun h => hi (h.symm.trans hp)
        have h2 : ¬ cid = i := fun h => hi h.symm
        simp [lookupA, hp, hi, h1, h2, ih]
    · by_cases hpi : p.1 = i
      · have h1 : ¬ i = cid := fun h => hp (hpi.trans h)
        simp [lookupA, hp, hpi, h1]
      · simp [lookupA, hp, hpi, ih]

theorem lookupA_filter_ne {β : Type} (l : List (Nat × β)) (c2 i : Nat) :
    lookupA (l.filter (fun p => p.1 ≠ c2)) i =
      if i = c2 then none else lookupA l i := by
  induction l with
  | nil => simp [lookupA]
  | cons p ps ih =>
    simp only [ne_eq, decide_not] at ih ⊢
    rw [List.filter_cons]
    by_cases hp : p.1 = c2
    · rw [if_neg (by simp [hp])]
      rw [ih]
      by_cases hi : i = c2
      · simp [hi]
      · have h1 : ¬ p.1 = i := fun h => hi (h.symm.trans hp)
        simp [lookupA, hi, h1]
    · rw [if_pos (by simp [hp])]
      by_cases hpi : p.1 = i
      · have h1 : ¬ i = c2 := fun h => hp (hpi.trans h)
        simp [lookupA, hpi, h1]
      · simp [lookupA, hpi, ih]

theorem lookupA_snoc {β : Type} (l : List (Nat × β)) (n : Nat) (c : β)
    (hn : lookupA l n = none) (i : Nat) :
    lookupA (l ++ [(n, c)]) i = if i = n then some c else lookupA l i := by
  by_cases hi : i = n
  · subst hi
    rw [lookupA_append_none _ hn]
    simp [lookupA]
  · cases h : lookupA l i with
    | none =>
      rw [lookupA_append_none _ h]
      have hni : ¬ n = i := fun hh => hi hh.symm
      simp [lookupA, hni, hi]
    | some v =>
      rw [lookupA_append_some _ h]
      simp [hi]

theorem map_fst_update {β : Type} (l : List (Nat × β)) (cid : Nat)
    (f : β → β) :
    (l.map (fun p => if p.1 = cid then (p.1, f p.2) else p)).map Prod.fst =
      l.map Prod.fst := by
  rw [List.map_map]
  apply List.map_congr_left
  intro p _
  by_cases hp : p.1 = cid <;> simp [hp]

theorem good_empty : Good [] EquivalenceClass.emptyState := by
  constructor <;> simp [EquivalenceClass.emptyState, lookupA]

theorem cooccur_append_left {rs : List OBRecord} (r : OBRecord)
    {k k' : RegKey} (h : cooccur rs k k') : cooccur (rs ++ [r]) k k' := by
  obtain ⟨r', hr', h1, h2⟩ := h
  exact ⟨r', List.mem_append_left _ hr', h1, h2⟩

theorem transGen_append_left {rs : List OBRecord} (r : OBRecord)
    {k k' : RegKey} (h : Relation.TransGen (cooccur rs) k k') :
    Relation.TransGen (cooccur (rs ++ [r])) k k' :=
  h.mono (fun _ _ hh => cooccur_append_left r hh)

theorem cooccur_last (rs : List OBRecord) (r : OBRecord) {k k' : RegKey}
    (hk : touches r k) (hk' : touches r k') : cooccur (rs ++ [r]) k k' :=
  ⟨r, List.mem_append_right _ (List.mem_singleton_self r), hk, hk'⟩

theorem lookup_next_none {rs : List OBRecord} {s : EqState} (hg : Good rs s) :
    lookupA s.eq_classes s.next_eq_id = none := by
  rw [lookupA_none_iff]
  intro hmem
  obtain ⟨p, hp, hfst⟩ := List.mem_map.mp hmem
  exact absurd (hfst ▸ hg.lt_next p hp) (lt_irrefl _)

theorem good_create {rs : List OBRecord} {s : EqState}
    {ft : FormulationTuple} {apt : ApplicationTuple}
    (hg : Good rs s)
    (hf : lookupA s.form_tuple_classes ft = none)
    (ha : lookupA s.app_tuple_classes apt = none) :
    EquivalenceClass.create s [ft] [apt] none = some (createdState s ft apt) ∧
      Good (rs ++ [(ft, apt)]) (createdState s ft apt) := by
  have hnext := lookup_next_none hg
  constructor
  · simp [EquivalenceClass.create, EquivalenceClass.addTuples, hf, ha,
      hnext, addToSet, createdState]
  · set n := s.next_eq_id with hn
    refine ⟨?_, ?_, ?_, ?_, ?_, ?_, ?_, ?_, ?_, ?_, ?_⟩
    · -- ft_owner
      intro f i h
      rw [show (createdState s ft apt).form_tuple_classes =
            setA s.form_tuple_classes ft n from rfl, lookupA_setA] at h
      by_cases hfe : f = ft
      · rw [if_pos hfe] at h
        injection h with h
        refine ⟨⟨[ft], [apt]⟩, ?_, by simp [hfe]⟩
        rw [show (createdState s ft apt).eq_classes =
              s.eq_classes ++ [(n, ⟨[ft], [apt]⟩)] from rfl,
          lookupA_snoc _ _ _ hnext, if_pos h.symm]
      · rw [if_neg hfe] at h
        obtain ⟨c, hc, hmem⟩ := hg.ft_owner f i h
        refine ⟨c, ?_, hmem⟩
        have hin : ¬ i = n := by
          intro he
          rw [he, hn, hnext] at hc
          cases hc
        rw [show (createdState s ft apt).eq_classes =
              s.eq_classes ++ [(n, ⟨[ft], [apt]⟩)] from rfl,
          lookupA_snoc _ _ _ hnext, if_neg hin]
        exact hc
    · -- at_owner
      intro a i h
      rw [show (createdState s ft apt).app_tuple_classes =
            setA s.app_tuple_classes apt n from rfl, lookupA_setA] at h
      by_cases hae : a = apt
      · rw [if_pos hae] at h
        injection h with h
        refine ⟨⟨[ft], [apt]⟩, ?_, by simp [hae]⟩
        rw [show (createdState s ft apt).eq_classes =
              s.eq_classes ++ [(n, ⟨[ft], [apt]⟩)] from rfl,
          lookupA_snoc _ _ _ hnext, if_pos h.symm]
      · rw [if_neg hae] at h
        obtain ⟨c, hc, hmem⟩ := hg.at_owner a i h
        refine ⟨c, ?_, hmem⟩
        have hin : ¬ i = n := by
          intro he
          rw [he, hn, hnext] at hc
          cases hc
        rw [show (createdState s ft apt).eq_classes =
              s.eq_classes ++ [(n, ⟨[ft], [apt]⟩)] from rfl,
          lookupA_snoc _ _ _ hnext, if_neg hin]
        exact hc
    · -- ft_mem
      intro i c hc f hfmem
      rw [show (createdState s ft apt).eq_classes =
            s.eq_classes ++ [(n, ⟨[ft], [apt]⟩)] from rfl,
        lookupA_snoc _ _ _ hnext] at hc
      rw [show (createdState s ft apt).form_tuple_classes =
            setA s.form_tuple_classes ft n from rfl, lookupA_setA]
      by_cases hi : i = n
      · rw [if_pos hi] at hc
        injection hc with hc
        rw [← hc] at hfmem
        simp only [List.mem_singleton] at hfmem
        rw [if_pos hfmem, hi]
      · rw [if_neg hi] at hc
        have hold := hg.ft_mem i c hc f hfmem
        have hfne : ¬ f = ft := by
          intro he
          rw [he, hf] at hold
          cases hold
        rw [if_neg hfne]
        exact hold
    · -- at_mem
      intro i c hc a hamem
      rw [show (createdState s ft apt).eq_classes =
            s.eq_classes ++ [(n, ⟨[ft], [apt]⟩)] from rfl,
        lookupA_snoc _ _ _ hnext] at hc
      rw [show (createdState s ft apt).app_tuple_classes =
            setA s.app_tuple_classes apt n from rfl, lookupA_setA]
      by_cases hi : i = n
      · rw [if_pos hi] at hc
        injection hc with hc
        rw [← hc] at hamem
        simp only [List.mem_singleton] at hamem
        rw [if_pos hamem, hi]
      · rw [if_neg hi] at hc
        have hold := hg.at_mem i c hc a hamem
        have hane : ¬ a = apt := by
          intro he
          rw [he, ha] at hold
          cases hold
        rw [if_neg hane]
        exact hold
    · -- ft_dom
      intro f
      rw [show (createdState s ft apt).form_tuple_classes =
            setA s.form_tuple_classes ft n from rfl, lookupA_setA]
      by_cases hfe : f = ft
      · subst hfe
        rw [if_pos rfl]
        simp only [Option.isSome_some, true_iff]
        exact ⟨(f, apt), List.mem_append_right _ (List.mem_singleton_self _),
          rfl⟩
      · rw [if_neg hfe, hg.ft_dom f]
        constructor
        · rintro ⟨r, hr, h1⟩
          exact ⟨r, List.mem_append_left _ hr, h1⟩
        · rintro ⟨r, hr, h1⟩
          rcases List.mem_append.mp hr with hr | hr
          · exact ⟨r, hr, h1⟩
          · rw [List.mem_singleton] at hr
            subst hr
            exact absurd h1.symm hfe
    · -- at_dom
      intro a
      rw [show (createdState s ft apt).app_tuple_classes =
            setA s.app_tuple_classes apt n from rfl, lookupA_setA]
      by_cases hae : a = apt
      · subst hae
        rw [if_pos rfl]
        simp only [Option.isSome_some, true_iff]
        exact ⟨(ft, a), List.mem_append_right _ (List.mem_singleton_self _),
          rfl⟩
      · rw [if_neg hae, hg.at_dom a]
        constructor
        · rintro ⟨r, hr, h1⟩
          exact ⟨r, List.mem_append_left _ hr, h1⟩
        · rintro ⟨r, hr, h1⟩
          rcases List.mem_append.mp hr with hr | hr
          · exact ⟨r, hr, h1⟩
          · rw [List.mem_singleton] at hr
            subst hr
            exact absurd h1.symm hae
    · -- lt_next
      intro p hp
      rcases List.mem_append.mp hp with hp | hp
      · exact Nat.lt_succ_of_lt (hg.lt_next p hp)
      · rw [List.mem_singleton] at hp
        subst hp
        exact Nat.lt_succ_self _
    · -- keys_nodup
      rw [show (createdState s ft apt).eq_classes =
            s.eq_classes ++ [(n, ⟨[ft], [apt]⟩)] from rfl, List.map_append]
      refine List.Nodup.append hg.keys_nodup (List.nodup_singleton _) ?_
      intro x hx hx2
      simp only [List.map_cons, List.map_nil, List.mem_singleton] at hx2
      subst hx2
      exact (lookupA_none_iff _ _).mp hnext hx
    · -- mem_nodup
      intro i c hc
      rw [show (createdState s ft apt).eq_classes =
            s.eq_classes ++ [(n, ⟨[ft], [apt]⟩)] from rfl,
        lookupA_snoc _ _ _ hnext] at hc
      by_cases hi : i = n
      · rw [if_pos hi] at hc
        injection hc with hc
        rw [← hc]
        exact ⟨List.nodup_singleton _, List.nodup_singleton _⟩
      · rw [if_neg hi] at hc
        exact hg.mem_nodup i c hc
    · -- conn
      intro i c hc k k' hk hk'
      rw [show (createdState s ft apt).eq_classes =
            s.eq_classes ++ [(n, ⟨[ft], [apt]⟩)] from rfl,
        lookupA_snoc _ _ _ hnext] at hc
      by_cases hi : i = n
      · rw [if_pos hi] at hc
        injection hc with hc
        rw [← hc] at hk hk'
        have htk : touches (ft, apt) k := by
          cases k with
          | ft f =>
            simp only [inClass, List.mem_singleton] at hk
            exact Or.inl (by rw [hk])
          | apt a =>
            simp only [inClass, List.mem_singleton] at hk
            exact Or.inr (by rw [hk])
        have htk' : touches (ft, apt) k' := by
          cases k' with
          | ft f =>
            simp only [inClass, List.mem_singleton] at hk'
            exact Or.inl (by rw [hk'])
          | apt a =>
            simp only [inClass, List.mem_singleton] at hk'
            exact Or.inr (by rw [hk'])
        exact Relation.TransGen.single (cooccur_last rs (ft, apt) htk htk')
      · rw [if_neg hi] at hc
        exact transGen_append_left _ (hg.conn i c hc k k' hk hk')
    · -- rec_owned
      intro r hr
      rcases List.mem_append.mp hr with hr | hr
      · obtain ⟨i, h1, h2⟩ := hg.rec_owned r hr
        have hr1 : ¬ r.1 = ft := by
          intro he
          rw [show owner s (.ft r.1) =
                lookupA s.form_tuple_classes r.1 from rfl, he, hf] at h1
          cases h1
        have hr2 : ¬ r.2 = apt := by
          intro he
          rw [show owner s (.apt r.2) =
                lookupA s.app_tuple_classes r.2 from rfl, he, ha] at h2
          cases h2
        refine ⟨i, ?_, ?_⟩
        · rw [show owner (createdState s ft apt) (.ft r.1) =
                lookupA (setA s.form_tuple_classes ft n) r.1 from rfl,
            lookupA_setA, if_neg hr1]
          exact h1
        · rw [show owner (createdState s ft apt) (.apt r.2) =
                lookupA (setA s.app_tuple_classes apt n) r.2 from rfl,
            lookupA_setA, if_neg hr2]
          exact h2
      · rw [List.mem_singleton] at hr
        subst hr
        refine ⟨n, ?_, ?_⟩
        · rw [show owner (createdState s ft apt) (.ft ft) =
                lookupA (setA s.form_tuple_classes ft n) ft from rfl,
            lookupA_setA, if_pos rfl]
        · rw [show owner (createdState s ft apt) (.apt apt) =
                lookupA (setA s.app_tuple_classes apt n) apt from rfl,
            lookupA_setA, if_pos rfl]

theorem good_append_at {rs : List OBRecord} {s : EqState}
    {ft : FormulationTuple} {apt : ApplicationTuple} {fc : Nat}
    (hg : Good rs s)
    (hf : lookupA s.form_tuple_classes ft = some fc)
    (ha : lookupA s.app_tuple_classes apt = none) :
    EquivalenceClass.appendOp s fc ft apt = some (appATState s fc apt) ∧
      Good (rs ++ [(ft, apt)]) (appATState s fc apt) := by
  obtain ⟨c, hc, hftmem⟩ := hg.ft_owner ft fc hf
  have haptnot : apt ∉ c.app_tuples := by
    intro hm
    have h2 := hg.at_mem fc c hc apt hm
    rw [ha] at h2
    cases h2
  have KC : ∀ i, lookupA (appATState s fc apt).eq_classes i =
      if i = fc then (lookupA s.eq_classes i).map
        (fun c0 => ⟨c0.form_tuples, addToSet c0.app_tuples apt⟩)
      else lookupA s.eq_classes i := by
    intro i
    exact lookupA_map_update s.eq_classes fc
      (fun c0 => ⟨c0.form_tuples, addToSet c0.app_tuples apt⟩) i
  have hbridge : Relation.TransGen (cooccur (rs ++ [(ft, apt)]))
      (RegKey.ft ft) (RegKey.apt apt) :=
    Relation.TransGen.single
      (cooccur_last rs (ft, apt) (Or.inl rfl) (Or.inr rfl))
  have hbridge' : Relation.TransGen (cooccur (rs ++ [(ft, apt)]))
      (RegKey.apt apt) (RegKey.ft ft) :=
    Relation.TransGen.single
      (cooccur_last rs (ft, apt) (Or.inr rfl) (Or.inl rfl))
  constructor
  · unfold EquivalenceClass.appendOp
    rw [show EquivalenceClass.getClass s fc = some c from hc]
    simp only [haptnot, if_false, hftmem, if_true,
      EquivalenceClass.add_app_tuple, ha, Option.isSome_none,
      Bool.false_eq_true, EquivalenceClass.updateClass]
    rfl
  · refine ⟨?_, ?_, ?_, ?_, ?_, ?_, ?_, ?_, ?_, ?_, ?_⟩
    · -- ft_owner
      intro f i h
      obtain ⟨c0, hc0, hm⟩ := hg.ft_owner f i h
      by_cases hi : i = fc
      · refine ⟨⟨c0.form_tuples, addToSet c0.app_tuples apt⟩, ?_, hm⟩
        rw [KC, if_pos hi, hc0]
        rfl
      · exact ⟨c0, by rw [KC, if_neg hi]; exact hc0, hm⟩
    · -- at_owner
      intro a i h
      rw [show (appATState s fc apt).app_tuple_classes =
            setA s.app_tuple_classes apt fc from rfl, lookupA_setA] at h
      by_cases hae : a = apt
      · rw [if_pos hae] at h
        injection h with h
        subst hae
        refine ⟨⟨c.form_tuples, addToSet c.app_tuples a⟩, ?_, ?_⟩
        · rw [KC, if_pos h.symm, ← h, hc]
          rfl
        · exact (mem_addToSet _ _ _).mpr (Or.inr rfl)
      · rw [if_neg hae] at h
        obtain ⟨c0, hc0, hm⟩ := hg.at_owner a i h
        by_cases hi : i = fc
        · refine ⟨⟨c0.form_tuples, addToSet c0.app_tuples apt⟩, ?_, ?_⟩
          · rw [KC, if_pos hi, hc0]
            rfl
          · exact (mem_addToSet _ _ _).mpr (Or.inl hm)
        · exact ⟨c0, by rw [KC, if_neg hi]; exact hc0, hm⟩
    · -- ft_mem
      intro i c' hc' f hm
      rw [KC] at hc'
      by_cases hi : i = fc
      · rw [if_pos hi, hi, hc] at hc'
        injection hc' with hc'
        rw [← hc'] at hm
        simp only at hm
        have := hg.ft_mem fc c hc f hm
        rw [hi]
        exact this
      · rw [if_neg hi] at hc'
        exact hg.ft_mem i c' hc' f hm
    · -- at_mem
      intro i c' hc' a ham
      rw [KC] at hc'
      rw [show (appATState s fc apt).app_tuple_classes =
            setA s.app_tuple_classes apt fc from rfl, lookupA_setA]
      by_cases hi : i = fc
      · rw [if_pos hi, hi, hc] at hc'
        injection hc' with hc'
        rw [← hc'] at ham
        simp only at ham
        rcases (mem_addToSet _ _ _).mp ham with hold | hnew
        · have h2 := hg.at_mem fc c hc a hold
          have hane : ¬ a = apt := by
            intro he
            rw [he, ha] at h2
            cases h2
          rw [if_neg hane, hi]
          exact h2
        · rw [if_pos hnew, hi]
      · rw [if_neg hi] at hc'
        have h2 := hg.at_mem i c' hc' a ham
        have hane : ¬ a = apt := by
          intro he
          rw [he, ha] at h2
          cases h2
        rw [if_neg hane]
        exact h2
    · -- ft_dom
      intro f
      rw [show (appATState s fc apt).form_tuple_classes =
            s.form_tuple_classes from rfl, hg.ft_dom f]
      constructor
      · rintro ⟨r, hr, h1⟩
        exact ⟨r, List.mem_append_left _ hr, h1⟩
      · rintro ⟨r, hr, h1⟩
        rcases List.mem_append.mp hr with hr | hr
        · exact ⟨r, hr, h1⟩
        · rw [List.mem_singleton] at hr
          subst hr
          obtain ⟨r0, hr0, h0⟩ := (hg.ft_dom ft).mp (by rw [hf]; rfl)
          exact ⟨r0, hr0, h0.trans h1⟩
    · -- at_dom
      intro a
      rw [show (appATState s fc apt).app_tuple_classes =
            setA s.app_tuple_classes apt fc from rfl, lookupA_setA]
      by_cases hae : a = apt
      · subst hae
        rw [if_pos rfl]
        simp only [Option.isSome_some, true_iff]
        exact ⟨(ft, a), List.mem_append_right _ (List.mem_singleton_self _),
          rfl⟩
      · rw [if_neg hae, hg.at_dom a]
        constructor
        · rintro ⟨r, hr, h1⟩
          exact ⟨r, List.mem_append_left _ hr, h1⟩
        · rintro ⟨r, hr, h1⟩
          rcases List.mem_append.mp hr with hr | hr
          · exact ⟨r, hr, h1⟩
          · rw [List.mem_singleton] at hr
            subst hr
            exact absurd h1.symm hae
    · -- lt_next
      intro p hp
      obtain ⟨q, hq, heq⟩ := List.mem_map.mp hp
      have hq1 : p.1 = q.1 := by
        by_cases h : q.1 = fc
        · rw [if_pos h] at heq
          rw [← heq]
        · rw [if_neg h] at heq
          rw [← heq]
      rw [show (appATState s fc apt).next_eq_id = s.next_eq_id from rfl, hq1]
      exact hg.lt_next q hq
    · -- keys_nodup
      have hmf := map_fst_update s.eq_classes fc
        (fun c0 => (⟨c0.form_tuples, addToSet c0.app_tuples apt⟩ :
          EqClassData))
      rw [show (appATState s fc apt).eq_classes =
            s.eq_classes.map (fun p => if p.1 = fc then
              (p.1, ⟨p.2.form_tuples, addToSet p.2.app_tuples apt⟩) else p)
          from rfl]
      simp only at hmf
      rw [hmf]
      exact hg.keys_nodup
    · -- mem_nodup
      intro i c' hc'
      rw [KC] at hc'
      by_cases hi : i = fc
      · rw [if_pos hi, hi, hc] at hc'
        injection hc' with hc'
        obtain ⟨h1, h2⟩ := hg.mem_nodup fc c hc
        rw [← hc']
        exact ⟨h1, addToSet_nodup _ h2⟩
      · rw [if_neg hi] at hc'
        exact hg.mem_nodup i c' hc'
    · -- conn
      intro i c' hc' k k' hk hk'
      rw [KC] at hc'
      by_cases hi : i = fc
      · rw [if_pos hi, hi, hc] at hc'
        injection hc' with hc'
        have toOld : ∀ k0, inClass c' k0 →
            inClass c k0 ∨ k0 = RegKey.apt apt := by
          intro k0 hk0
          cases k0 with
          | ft f =>
            rw [← hc'] at hk0
            exact Or.inl hk0
          | apt a =>
            rw [← hc'] at hk0
            simp only [inClass] at hk0 ⊢
            rcases (mem_addToSet _ _ _).mp hk0 with h1 | h1
            · exact Or.inl h1
            · exact Or.inr (by rw [h1])
        have connOld : ∀ k1 k2, inClass c k1 → inClass c k2 →
            Relation.TransGen (cooccur (rs ++ [(ft, apt)])) k1 k2 :=
          fun k1 k2 h1 h2 =>
            transGen_append_left _ (hg.conn fc c hc k1 k2 h1 h2)
        rcases toOld k hk with hko | hknew
        · rcases toOld k' hk' with hko' | hknew'
          · exact connOld k k' hko hko'
          · subst hknew'
            exact (connOld k (RegKey.ft ft) hko hftmem).trans hbridge
        · subst hknew
          rcases toOld k' hk' with hko' | hknew'
          · exact hbridge'.trans (connOld (RegKey.ft ft) k' hftmem hko')
          · subst hknew'
            exact Relation.TransGen.single
              (cooccur_last rs (ft, apt) (Or.inr rfl) (Or.inr rfl))
      · rw [if_neg hi] at hc'
        exact transGen_append_left _ (hg.conn i c' hc' k k' hk hk')
    · -- rec_owned
      intro r hr
      rcases List.mem_append.mp hr with hr | hr
      · obtain ⟨i, h1, h2⟩ := hg.rec_owned r hr
        have hr2 : ¬ r.2 = apt := by
          intro he
          rw [show owner s (.apt r.2) =
                lookupA s.app_tuple_classes r.2 from rfl, he, ha] at h2
          cases h2
        refine ⟨i, h1, ?_⟩
        rw [show owner (appATState s fc apt) (.apt r.2) =
              lookupA (setA s.app_tuple_classes apt fc) r.2 from rfl,
          lookupA_setA, if_neg hr2]
        exact h2
      · rw [List.mem_singleton] at hr
        subst hr
        refine ⟨fc, hf, ?_⟩
        rw [show owner (appATState s fc apt) (.apt apt) =
              lookupA (setA s.app_tuple_classes apt fc) apt from rfl,
          lookupA_setA, if_pos rfl]

theorem good_append_ft {rs : List OBRecord} {s : EqState}
    {ft : FormulationTuple} {apt : ApplicationTuple} {ac : Nat}
    (hg : Good rs s)
    (hf : lookupA s.form_tuple_classes ft = none)
    (ha : lookupA s.app_tuple_classes apt = some ac) :
    EquivalenceClass.appendOp s ac ft apt = some (appFTState s ac ft) ∧
      Good (rs ++ [(ft, apt)]) (appFTState s ac ft) := by
  obtain ⟨c, hc, haptmem⟩ := hg.at_owner apt ac ha
  have hftnot : ft ∉ c.form_tuples := by
    intro hm
    have h2 := hg.ft_mem ac c hc ft hm
    rw [hf] at h2
    cases h2
  have KC : ∀ i, lookupA (appFTState s ac ft).eq_classes i =
      if i = ac then (lookupA s.eq_classes i).map
        (fun c0 => ⟨addToSet c0.form_tuples ft, c0.app_tuples⟩)
      else lookupA s.eq_classes i := by
    intro i
    exact lookupA_map_update s.eq_classes ac
      (fun c0 => ⟨addToSet c0.form_tuples ft, c0.app_tuples⟩) i
  have hbridge : Relation.TransGen (cooccur (rs ++ [(ft, apt)]))
      (RegKey.ft ft) (RegKey.apt apt) :=
    Relation.TransGen.single
      (cooccur_last rs (ft, apt) (Or.inl rfl) (Or.inr rfl))
  have hbridge' : Relation.TransGen (cooccur (rs ++ [(ft, apt)]))
      (RegKey.apt apt) (RegKey.ft ft) :=
    Relation.TransGen.single
      (cooccur_last rs (ft, apt) (Or.inr rfl) (Or.inl rfl))
  constructor
  · unfold EquivalenceClass.appendOp
    rw [show EquivalenceClass.getClass s ac = some c from hc]
    simp only [haptmem, if_true, hftnot, if_false,
      EquivalenceClass.add_form_tuple, hf, Option.isSome_none,
      Bool.false_eq_true, EquivalenceClass.updateClass]
    rfl
  · refine ⟨?_, ?_, ?_, ?_, ?_, ?_, ?_, ?_, ?_, ?_, ?_⟩
    · -- ft_owner
      intro f i h
      rw [show (appFTState s ac ft).form_tuple_classes =
            setA s.form_tuple_classes ft ac from rfl, lookupA_setA] at h
      by_cases hfe : f = ft
      · rw [if_pos hfe] at h
        injection h with h
        subst hfe
        refine ⟨⟨addToSet c.form_tuples f, c.app_tuples⟩, ?_, ?_⟩
        · rw [KC, if_pos h.symm, ← h, hc]
          rfl
        · exact (mem_addToSet _ _ _).mpr (Or.inr rfl)
      · rw [if_neg hfe] at h
        obtain ⟨c0, hc0, hm⟩ := hg.ft_owner f i h
        by_cases hi : i = ac
        · refine ⟨⟨addToSet c0.form_tuples ft, c0.app_tuples⟩, ?_, ?_⟩
          · rw [KC, if_pos hi, hc0]
            rfl
          · exact (mem_addToSet _ _ _).mpr (Or.inl hm)
        · exact ⟨c0, by rw [KC, if_neg hi]; exact hc0, hm⟩
    · -- at_owner
      intro a i h
      obtain ⟨c0, hc0, hm⟩ := hg.at_owner a i h
      by_cases hi : i = ac
      · refine ⟨⟨addToSet c0.form_tuples ft, c0.app_tuples⟩, ?_, hm⟩
        rw [KC, if_pos hi, hc0]
        rfl
      · exact ⟨c0, by rw [KC, if_neg hi]; exact hc0, hm⟩
    · -- ft_mem
      intro i c' hc' f hm
      rw [KC] at hc'
      rw [show (appFTState s ac ft).form_tuple_classes =
            setA s.form_tuple_classes ft ac from rfl, lookupA_setA]
      by_cases hi : i = ac
      · rw [if_pos hi, hi, hc] at hc'
        injection hc' with hc'
        rw [← hc'] at hm
        simp only at hm
        rcases (mem_addToSet _ _ _).mp hm with hold | hnew
        · have h2 := hg.ft_mem ac c hc f hold
          have hfne : ¬ f = ft := by
            intro he
            rw [he, hf] at h2
            cases h2
          rw [if_neg hfne, hi]
          exact h2
        · rw [if_pos hnew, hi]
      · rw [if_neg hi] at hc'
        have h2 := hg.ft_mem i c' hc' f hm
        have hfne : ¬ f = ft := by
          intro he
          rw [he, hf] at h2
          cases h2
        rw [if_neg hfne]
        exact h2
    · -- at_mem
      intro i c' hc' a ham
      rw [KC] at hc'
      by_cases hi : i = ac
      · rw [if_pos hi, hi, hc] at hc'
        injection hc' with hc'
        rw [← hc'] at ham
        simp only at ham
        have := hg.at_mem ac c hc a ham
        rw [hi]
        exact this
      · rw [if_neg hi] at hc'
        exact hg.at_mem i c' hc' a ham
    · -- ft_dom
      intro f
      rw [show (appFTState s ac ft).form_tuple_classes =
            setA s.form_tuple_classes ft ac from rfl, lookupA_setA]
      by_cases hfe : f = ft
      · subst hfe
        rw [if_pos rfl]
        simp only [Option.isSome_some, true_iff]
        exact ⟨(f, apt), List.mem_append_right _ (List.mem_singleton_self _),
          rfl⟩
      · rw [if_neg hfe, hg.ft_dom f]
        constructor
        · rintro ⟨r, hr, h1⟩
          exact ⟨r, List.mem_append_left _ hr, h1⟩
        · rintro ⟨r, hr, h1⟩
          rcases List.mem_append.mp hr with hr | hr
          · exact ⟨r, hr, h1⟩
          · rw [List.mem_singleton] at hr
            subst hr
            exact absurd h1.symm hfe
    · -- at_dom
      intro a
      rw [show (appFTState s ac ft).app_tuple_classes =
            s.app_tuple_classes from rfl, hg.at_dom a]
      constructor
      · rintro ⟨r, hr, h1⟩
        exact ⟨r, List.mem_append_left _ hr, h1⟩
      · rintro ⟨r, hr, h1⟩
        rcases List.mem_append.mp hr with hr | hr
        · exact ⟨r, hr, h1⟩
        · rw [List.mem_singleton] at hr
          subst hr
          obtain ⟨r0, hr0, h0⟩ := (hg.at_dom apt).mp (by rw [ha]; rfl)
          exact ⟨r0, hr0, h0.trans h1⟩
    · -- lt_next
      intro p hp
      obtain ⟨q, hq, heq⟩ := List.mem_map.mp hp
      have hq1 : p.1 = q.1 := by
        by_cases h : q.1 = ac
        · rw [if_pos h] at heq
          rw [← heq]
        · rw [if_neg h] at heq
          rw [← heq]
      rw [show (appFTState s ac ft).next_eq_id = s.next_eq_id from rfl, hq1]
      exact hg.lt_next q hq
    · -- keys_nodup
      have hmf := map_fst_update s.eq_classes ac
        (fun c0 => (⟨addToSet c0.form_tuples ft, c0.app_tuples⟩ :
          EqClassData))
      rw [show (appFTState s ac ft).eq_classes =
            s.eq_classes.map (fun p => if p.1 = ac then
              (p.1, ⟨addToSet p.2.form_tuples ft, p.2.app_tuples⟩) else p)
          from rfl]
      simp only at hmf
      rw [hmf]
      exact hg.keys_nodup
    · -- mem_nodup
      intro i c' hc'
      rw [KC] at hc'
      by_cases hi : i = ac
      · rw [if_pos hi, hi, hc] at hc'
        injection hc' with hc'
        obtain ⟨h1, h2⟩ := hg.mem_nodup ac c hc
        rw [← hc']
        exact ⟨addToSet_nodup _ h1, h2⟩
      · rw [if_neg hi] at hc'
        exact hg.mem_nodup i c' hc'
    · -- conn
      intro i c' hc' k k' hk hk'
      rw [KC] at hc'
      by_cases hi : i = ac
      · rw [if_pos hi, hi, hc] at hc'
        injection hc' with hc'
        have toOld : ∀ k0, inClass c' k0 →
            inClass c k0 ∨ k0 = RegKey.ft ft := by
          intro k0 hk0
          cases k0 with
          | apt a =>
            rw [← hc'] at hk0
            exact Or.inl hk0
          | ft f =>
            rw [← hc'] at hk0
            simp only [inClass] at hk0 ⊢
            rcases (mem_addToSet _ _ _).mp hk0 with h1 | h1
            · exact Or.inl h1
            · exact Or.inr (by rw [h1])
        have connOld : ∀ k1 k2, inClass c k1 → inClass c k2 →
            Relation.TransGen (cooccur (rs ++ [(ft, apt)])) k1 k2 :=
          fun k1 k2 h1 h2 =>
            transGen_append_left _ (hg.conn ac c hc k1 k2 h1 h2)
        rcases toOld k hk with hko | hknew
        · rcases toOld k' hk' with hko' | hknew'
          · exact connOld k k' hko hko'
          · subst hknew'
            exact (connOld k (RegKey.apt apt) hko haptmem).trans hbridge'
        · subst hknew
          rcases toOld k' hk' with hko' | hknew'
          · exact hbridge.trans (connOld (RegKey.apt apt) k' haptmem hko')
          · subst hknew'
            exact Relation.TransGen.single
              (cooccur_last rs (ft, apt) (Or.inl rfl) (Or.inl rfl))
      · rw [if_neg hi] at hc'
        exact transGen_append_left _ (hg.conn i c' hc' k k' hk hk')
    · -- rec_owned
      intro r hr
      rcases List.mem_append.mp hr with hr | hr
      · obtain ⟨i, h1, h2⟩ := hg.rec_owned r hr
        have hr1 : ¬ r.1 = ft := by
          intro he
          rw [show owner s (.ft r.1) =
                lookupA s.form_tuple_classes r.1 from rfl, he, hf] at h1
          cases h1
        refine ⟨i, ?_, h2⟩
        rw [show owner (appFTState s ac ft) (.ft r.1) =
              lookupA (setA s.form_tuple_classes ft ac) r.1 from rfl,
          lookupA_setA, if_neg hr1]
        exact h1
      · rw [List.mem_singleton] at hr
        subst hr
        refine ⟨ac, ?_, ha⟩
        rw [show owner (appFTState s ac ft) (.ft ft) =
              lookupA (setA s.form_tuple_classes ft ac) ft from rfl,
          lookupA_setA, if_pos rfl]

theorem good_same {rs : List OBRecord} {s : EqState}
    {ft : FormulationTuple} {apt : ApplicationTuple} {fc : Nat}
    (hg : Good rs s)
    (hf : lookupA s.form_tuple_classes ft = some fc)
    (ha : lookupA s.app_tuple_classes apt = some fc) :
    EquivalenceClass.appendOp s fc ft apt = some s ∧
      Good (rs ++ [(ft, apt)]) s := by
  obtain ⟨c, hc, hftc⟩ := hg.ft_owner ft fc hf
  obtain ⟨c', hc', haptc⟩ := hg.at_owner apt fc ha
  rw [hc] at hc'
  injection hc' with hc'
  subst hc'
  constructor
  · unfold EquivalenceClass.appendOp
    rw [show EquivalenceClass.getClass s fc = some c from hc]
    simp only [haptc, if_true, hftc]
  · refine ⟨hg.ft_owner, hg.at_owner, hg.ft_mem, hg.at_mem, ?_, ?_,
      hg.lt_next, hg.keys_nodup, hg.mem_nodup, ?_, ?_⟩
    · intro f
      rw [hg.ft_dom f]
      constructor
      · rintro ⟨r, hr, h1⟩
        exact ⟨r, List.mem_append_left _ hr, h1⟩
      · rintro ⟨r, hr, h1⟩
        rcases List.mem_append.mp hr with hr | hr
        · exact ⟨r, hr, h1⟩
        · rw [List.mem_singleton] at hr
          subst hr
          obtain ⟨r0, hr0, h0⟩ := (hg.ft_dom ft).mp (by rw [hf]; rfl)
          exact ⟨r0, hr0, h0.trans h1⟩
    · intro a
      rw [hg.at_dom a]
      constructor
      · rintro ⟨r, hr, h1⟩
        exact ⟨r, List.mem_append_left _ hr, h1⟩
      · rintro ⟨r, hr, h1⟩
        rcases List.mem_append.mp hr with hr | hr
        · exact ⟨r, hr, h1⟩
        · rw [List.mem_singleton] at hr
          subst hr
          obtain ⟨r0, hr0, h0⟩ := (hg.at_dom apt).mp (by rw [ha]; rfl)
          exact ⟨r0, hr0, h0.trans h1⟩
    · intro i c0 hc0 k k' hk hk'
      exact transGen_append_left _ (hg.conn i c0 hc0 k k' hk hk')
    · intro r hr
      rcases List.mem_append.mp hr with hr | hr
      · exact hg.rec_owned r hr
      · rw [List.mem_singleton] at hr
        subst hr
        exact ⟨fc, hf, ha⟩

theorem good_merge {rs : List OBRecord} {s : EqState}
    {ft : FormulationTuple} {apt : ApplicationTuple} {fc ac : Nat}
    {o : EqClassData}
    (hg : Good rs s)
    (hf : lookupA s.form_tuple_classes ft = some fc)
    (ha : lookupA s.app_tuple_classes apt = some ac)
    (hne : ¬ fc = ac)
    (h0 : lookupA s.eq_classes ac = some o) :
    EquivalenceClass.mergeOp s fc ac = some (mergedState s fc ac o) ∧
      EquivalenceClass.appendOp (mergedState s fc ac o) fc ft apt =
        some (mergedState s fc ac o) ∧
      Good (rs ++ [(ft, apt)]) (mergedState s fc ac o) := by
  obtain ⟨c, hc, hftc⟩ := hg.ft_owner ft fc hf
  have haptc : apt ∈ o.app_tuples := by
    obtain ⟨o', h0', hm⟩ := hg.at_owner apt ac ha
    rw [h0] at h0'
    injection h0' with h0'
    rw [h0']
    exact hm
  have hftno : ft ∉ o.form_tuples := by
    intro hm
    have h2 := hg.ft_mem ac o h0 ft hm
    rw [hf] at h2
    injection h2 with h2
    exact hne h2
  have KM : ∀ i, lookupA (mergedState s fc ac o).eq_classes i =
      if i = ac then none
      else if i = fc then (lookupA s.eq_classes i).map
        (fun c0 => ⟨o.form_tuples.foldl addToSet c0.form_tuples,
                    o.app_tuples.foldl addToSet c0.app_tuples⟩)
      else lookupA s.eq_classes i := by
    intro i
    rw [show (mergedState s fc ac o).eq_classes =
        (s.eq_classes.map (fun p => if p.1 = fc then
          (p.1, ⟨o.form_tuples.foldl addToSet p.2.form_tuples,
                 o.app_tuples.foldl addToSet p.2.app_tuples⟩) else p)).filter
          (fun p => p.1 ≠ ac) from rfl,
      lookupA_filter_ne,
      lookupA_map_update s.eq_classes fc
        (fun c0 => ⟨o.form_tuples.foldl addToSet c0.form_tuples,
                    o.app_tuples.foldl addToSet c0.app_tuples⟩)]
  have KF : ∀ f', lookupA (mergedState s fc ac o).form_tuple_classes f' =
      if f' ∈ o.form_tuples then some fc
      else lookupA s.form_tuple_classes f' :=
    fun f' => lookupA_foldl_setA o.form_tuples s.form_tuple_classes fc f'
  have KA : ∀ a', lookupA (mergedState s fc ac o).app_tuple_classes a' =
      if a' ∈ o.app_tuples then some fc
      else lookupA s.app_tuple_classes a' :=
    fun a' => lookupA_foldl_setA o.app_tuples s.app_tuple_classes fc a'
  have hoF : ∀ f', f' ∈ o.form_tuples →
      lookupA s.form_tuple_classes f' = some ac :=
    fun f' hm => hg.ft_mem ac o h0 f' hm
  have hoA : ∀ a', a' ∈ o.app_tuples →
      lookupA s.app_tuple_classes a' = some ac :=
    fun a' hm => hg.at_mem ac o h0 a' hm
  have hcF : ∀ f', f' ∈ c.form_tuples →
      lookupA s.form_tuple_classes f' = some fc :=
    fun f' hm => hg.ft_mem fc c hc f' hm
  have hcA : ∀ a', a' ∈ c.app_tuples →
      lookupA s.app_tuple_classes a' = some fc :=
    fun a' hm => hg.at_mem fc c hc a' hm
  have hMfc : lookupA (mergedState s fc ac o).eq_classes fc =
      some ⟨o.form_tuples.foldl addToSet c.form_tuples,
            o.app_tuples.foldl addToSet c.app_tuples⟩ := by
    rw [KM, if_neg hne, if_pos rfl, hc]
    rfl
  have hmerge : EquivalenceClass.mergeOp s fc ac =
      some (mergedState s fc ac o) := by
    unfold EquivalenceClass.mergeOp
    rw [show EquivalenceClass.getClass s ac = some o from h0]
    rfl
  have happend : EquivalenceClass.appendOp (mergedState s fc ac o) fc ft apt =
      some (mergedState s fc ac o) := by
    unfold EquivalenceClass.appendOp
    rw [show EquivalenceClass.getClass (mergedState s fc ac o) fc =
        some ⟨o.form_tuples.foldl addToSet c.form_tuples,
              o.app_tuples.foldl addToSet c.app_tuples⟩ from hMfc]
    have h1 : apt ∈ o.app_tuples.foldl addToSet c.app_tuples :=
      (mem_foldl_addToSet _ _ _).mpr (Or.inr haptc)
    have h2 : ft ∈ o.form_tuples.foldl addToSet c.form_tuples :=
      (mem_foldl_addToSet _ _ _).mpr (Or.inl hftc)
    simp only [h1, if_true, h2]
  have hbridge : Relation.TransGen (cooccur (rs ++ [(ft, apt)]))
      (RegKey.ft ft) (RegKey.apt apt) :=
    Relation.TransGen.single
      (cooccur_last rs (ft, apt) (Or.inl rfl) (Or.inr rfl))
  have hbridge' : Relation.TransGen (cooccur (rs ++ [(ft, apt)]))
      (RegKey.apt apt) (RegKey.ft ft) :=
    Relation.TransGen.single
      (cooccur_last rs (ft, apt) (Or.inr rfl) (Or.inl rfl))
  refine ⟨hmerge, happend, ?_⟩
  refine ⟨?_, ?_, ?_, ?_, ?_, ?_, ?_, ?_, ?_, ?_, ?_⟩
  · -- ft_owner
    intro f i h
    rw [KF] at h
    by_cases hmo : f ∈ o.form_tuples
    · rw [if_pos hmo] at h
      injection h with h
      subst h
      refine ⟨_, hMfc, ?_⟩
      exact (mem_foldl_addToSet _ _ _).mpr (Or.inr hmo)
    · rw [if_neg hmo] at h
      obtain ⟨c0, hc0, hm⟩ := hg.ft_owner f i h
      have hiac : ¬ i = ac := by
        intro he
        rw [he, h0] at hc0
        injection hc0 with hc0
        subst hc0
        exact hmo hm
      by_cases hifc : i = fc
      · subst hifc
        rw [hc] at hc0
        injection hc0 with hc0
        subst hc0
        refine ⟨_, hMfc, ?_⟩
        exact (mem_foldl_addToSet _ _ _).mpr (Or.inl hm)
      · refine ⟨c0, ?_, hm⟩
        rw [KM, if_neg hiac, if_neg hifc]
        exact hc0
  · -- at_owner
    intro a i h
    rw [KA] at h
    by_cases hmo : a ∈ o.app_tuples
    · rw [if_pos hmo] at h
      injection h with h
      subst h
      refine ⟨_, hMfc, ?_⟩
      exact (mem_foldl_addToSet _ _ _).mpr (Or.inr hmo)
    · rw [if_neg hmo] at h
      obtain ⟨c0, hc0, hm⟩ := hg.at_owner a i h
      have hiac : ¬ i = ac := by
        intro he
        rw [he, h0] at hc0
        injection hc0 with hc0
        subst hc0
        exact hmo hm
      by_cases hifc : i = fc
      · subst hifc
        rw [hc] at hc0
        injection hc0 with hc0
        subst hc0
        refine ⟨_, hMfc, ?_⟩
        exact (mem_foldl_addToSet _ _ _).mpr (Or.inl hm)
      · refine ⟨c0, ?_, hm⟩
        rw [KM, if_neg hiac, if_neg hifc]
        exact hc0
  · -- ft_mem
    intro i c' hc' f hm
    rw [KM] at hc'
    by_cases hiac : i = ac
    · rw [if_pos hiac] at hc'
      cases hc'
    · rw [if_neg hiac] at hc'
      rw [KF]
      by_cases hifc : i = fc
      · subst hifc
        rw [if_pos rfl, hc] at hc'
        injection hc' with hc'
        rw [← hc'] at hm
        simp only at hm
        rcases (mem_foldl_addToSet _ _ _).mp hm with hmc | hmo
        · by_cases hmo2 : f ∈ o.form_tuples
          · rw [if_pos hmo2]
          · rw [if_neg hmo2]
            exact hcF f hmc
        · rw [if_pos hmo]
      · rw [if_neg hifc] at hc'
        have hold := hg.ft_mem i c' hc' f hm
        have hmo : f ∉ o.form_tuples := by
          intro hmm
          rw [hoF f hmm] at hold
          injection hold with hold
          exact hiac hold.symm
        rw [if_neg hmo]
        exact hold
  · -- at_mem
    intro i c' hc' a hm
    rw [KM] at hc'
    by_cases hiac : i = ac
    · rw [if_pos hiac] at hc'
      cases hc'
    · rw [if_neg hiac] at hc'
      rw [KA]
      by_cases hifc : i = fc
      · subst hifc
        rw [if_pos rfl, hc] at hc'
        injection hc' with hc'
        rw [← hc'] at hm
        simp only at hm
        rcases (mem_foldl_addToSet _ _ _).mp hm with hmc | hmo
        · by_cases hmo2 : a ∈ o.app_tuples
          · rw [if_pos hmo2]
          · rw [if_neg hmo2]
            exact hcA a hmc
        · rw [if_pos hmo]
      · rw [if_neg hifc] at hc'
        have hold := hg.at_mem i c' hc' a hm
        have hmo : a ∉ o.app_tuples := by
          intro hmm
          rw [hoA a hmm] at hold
          injection hold with hold
          exact hiac hold.symm
        rw [if_neg hmo]
        exact hold
  · -- ft_dom
    intro f
    have hiff : (lookupA (mergedState s fc ac o).form_tuple_classes f).isSome
        ↔ (lookupA s.form_tuple_classes f).isSome := by
      rw [KF]
      by_cases hmo : f ∈ o.form_tuples
      · rw [if_pos hmo, hoF f hmo]
        simp
      · rw [if_neg hmo]
    rw [hiff, hg.ft_dom f]
    constructor
    · rintro ⟨r, hr, h1⟩
      exact ⟨r, List.mem_append_left _ hr, h1⟩
    · rintro ⟨r, hr, h1⟩
      rcases List.mem_append.mp hr with hr | hr
      · exact ⟨r, hr, h1⟩
      · rw [List.mem_singleton] at hr
        subst hr
        obtain ⟨r0, hr0, hh⟩ := (hg.ft_dom ft).mp (by rw [hf]; rfl)
        exact ⟨r0, hr0, hh.trans h1⟩
  · -- at_dom
    intro a
    have hiff : (lookupA (mergedState s fc ac o).app_tuple_classes a).isSome
        ↔ (lookupA s.app_tuple_classes a).isSome := by
      rw [KA]
      by_cases hmo : a ∈ o.app_tuples
      · rw [if_pos hmo, hoA a hmo]
        simp
      · rw [if_neg hmo]
    rw [hiff, hg.at_dom a]
    constructor
    · rintro ⟨r, hr, h1⟩
      exact ⟨r, List.mem_append_left _ hr, h1⟩
    · rintro ⟨r, hr, h1⟩
      rcases List.mem_append.mp hr with hr | hr
      · exact ⟨r, hr, h1⟩
      · rw [List.mem_singleton] at hr
        subst hr
        obtain ⟨r0, hr0, hh⟩ := (hg.at_dom apt).mp (by rw [ha]; rfl)
        exact ⟨r0, hr0, hh.trans h1⟩
  · -- lt_next
    intro p hp
    have hp2 := List.mem_filter.mp hp
    obtain ⟨q, hq, heq⟩ := List.mem_map.mp hp2.1
    have hq1 : p.1 = q.1 := by
      by_cases h : q.1 = fc
      · rw [if_pos h] at heq
        rw [← heq]
      · rw [if_neg h] at heq
        rw [← heq]
    rw [show (mergedState s fc ac o).next_eq_id = s.next_eq_id from rfl, hq1]
    exact hg.lt_next q hq
  · -- keys_nodup
    have hmf := map_fst_update s.eq_classes fc
      (fun c0 => (⟨o.form_tuples.foldl addToSet c0.form_tuples,
                   o.app_tuples.foldl addToSet c0.app_tuples⟩ : EqClassData))
    have hsub : List.Sublist
        (((s.eq_classes.map (fun p => if p.1 = fc then
          (p.1, ⟨o.form_tuples.foldl addToSet p.2.form_tuples,
                 o.app_tuples.foldl addToSet p.2.app_tuples⟩) else p)).filter
          (fun p => p.1 ≠ ac)).map Prod.fst)
        ((s.eq_classes.map (fun p => if p.1 = fc then
          (p.1, ⟨o.form_tuples.foldl addToSet p.2.form_tuples,
                 o.app_tuples.foldl addToSet p.2.app_tuples⟩) else p)).map
            Prod.fst) :=
      (List.filter_sublist _).map Prod.fst
    simp only at hmf
    rw [hmf] at hsub
    exact hsub.nodup hg.keys_nodup
  · -- mem_nodup
    intro i c' hc'
    rw [KM] at hc'
    by_cases hiac : i = ac
    · rw [if_pos hiac] at hc'
      cases hc'
    · rw [if_neg hiac] at hc'
      by_cases hifc : i = fc
      · rw [if_pos hifc, hifc, hc] at hc'
        injection hc' with hc'
        obtain ⟨h1, h2⟩ := hg.mem_nodup fc c hc
        rw [← hc']
        exact ⟨foldl_addToSet_nodup _ h1, foldl_addToSet_nodup _ h2⟩
      · rw [if_neg hifc] at hc'
        exact hg.mem_nodup i c' hc'
  · -- conn
    intro i c' hc' k k' hk hk'
    rw [KM] at hc'
    by_cases hiac : i = ac
    · rw [if_pos hiac] at hc'
      cases hc'
    · rw [if_neg hiac] at hc'
      by_cases hifc : i = fc
      · rw [if_pos hifc, hifc, hc] at hc'
        injection hc' with hc'
        have toSide : ∀ k0, inClass c' k0 → inClass c k0 ∨ inClass o k0 := by
          intro k0 hk0
          cases k0 with
          | ft f =>
            rw [← hc'] at hk0
            simp only [inClass] at hk0 ⊢
            exact (mem_foldl_addToSet _ _ _).mp hk0
          | apt a =>
            rw [← hc'] at hk0
            simp only [inClass] at hk0 ⊢
            exact (mem_foldl_addToSet _ _ _).mp hk0
        have connC : ∀ k1 k2, inClass c k1 → inClass c k2 →
            Relation.TransGen (cooccur (rs ++ [(ft, apt)])) k1 k2 :=
          fun k1 k2 h1 h2 =>
            transGen_append_left _ (hg.conn fc c hc k1 k2 h1 h2)
        have connO : ∀ k1 k2, inClass o k1 → inClass o k2 →
            Relation.TransGen (cooccur (rs ++ [(ft, apt)])) k1 k2 :=
          fun k1 k2 h1 h2 =>
            transGen_append_left _ (hg.conn ac o h0 k1 k2 h1 h2)
        rcases toSide k hk with hkc | hko
        · rcases toSide k' hk' with hkc' | hko'
          · exact connC k k' hkc hkc'
          · exact ((connC k (RegKey.ft ft) hkc hftc).trans hbridge).trans
              (connO (RegKey.apt apt) k' haptc hko')
        · rcases toSide k' hk' with hkc' | hko'
          · exact ((connO k (RegKey.apt apt) hko haptc).trans hbridge').trans
              (connC (RegKey.ft ft) k' hftc hkc')
          · exact connO k k' hko hko'
      · rw [if_neg hifc] at hc'
        exact transGen_append_left _ (hg.conn i c' hc' k k' hk hk')
  · -- rec_owned
    intro r hr
    rcases List.mem_append.mp hr with hr | hr
    · obtain ⟨i, h1, h2⟩ := hg.rec_owned r hr
      have h1' : lookupA s.form_tuple_classes r.1 = some i := h1
      have h2' : lookupA s.app_tuple_classes r.2 = some i := h2
      by_cases hiac : i = ac
      · have hm1 : r.1 ∈ o.form_tuples := by
          obtain ⟨o', h0', hm⟩ := hg.ft_owner r.1 i h1'
          rw [hiac, h0] at h0'
          injection h0' with h0'
          rw [h0']
          exact hm
        have hm2 : r.2 ∈ o.app_tuples := by
          obtain ⟨o', h0', hm⟩ := hg.at_owner r.2 i h2'
          rw [hiac, h0] at h0'
          injection h0' with h0'
          rw [h0']
          exact hm
        refine ⟨fc, ?_, ?_⟩
        · rw [show owner (mergedState s fc ac o) (.ft r.1) =
              lookupA (mergedState s fc ac o).form_tuple_classes r.1
              from rfl, KF, if_pos hm1]
        · rw [show owner (mergedState s fc ac o) (.apt r.2) =
              lookupA (mergedState s fc ac o).app_tuple_classes r.2
              from rfl, KA, if_pos hm2]
      · have hm1 : r.1 ∉ o.form_tuples := by
          intro hmm
          rw [hoF r.1 hmm] at h1'
          injection h1' with h1'
          exact hiac h1'.symm
        have hm2 : r.2 ∉ o.app_tuples := by
          intro hmm
          rw [hoA r.2 hmm] at h2'
          injection h2' with h2'
          exact hiac h2'.symm
        refine ⟨i, ?_, ?_⟩
        · rw [show owner (mergedState s fc ac o) (.ft r.1) =
              lookupA (mergedState s fc ac o).form_tuple_classes r.1
              from rfl, KF, if_neg hm1]
          exact h1'
        · rw [show owner (mergedState s fc ac o) (.apt r.2) =
              lookupA (mergedState s fc ac o).app_tuple_classes r.2
              from rfl, KA, if_neg hm2]
          exact h2'
    · rw [List.mem_singleton] at hr
      subst hr
      refine ⟨fc, ?_, ?_⟩
      · rw [show owner (mergedState s fc ac o) (.ft ft) =
            lookupA (mergedState s fc ac o).form_tuple_classes ft
            from rfl, KF, if_neg hftno]
        exact hf
      · rw [show owner (mergedState s fc ac o) (.apt apt) =
            lookupA (mergedState s fc ac o).app_tuple_classes apt
            from rfl, KA, if_pos haptc]

theorem addRec_good {rs : List OBRecord} {s : EqState} (hg : Good rs s)
    (ft : FormulationTuple) (apt : ApplicationTuple) :
    ∃ s', EquivalenceClass.addRec s ft apt = some s' ∧
      Good (rs ++ [(ft, apt)]) s' := by
  cases hF : lookupA s.form_tuple_classes ft with
  | none =>
    cases hA : lookupA s.app_tuple_classes apt with
    | none =>
      obtain ⟨h1, h2⟩ := good_create hg hF hA
      refine ⟨_, ?_, h2⟩
      unfold EquivalenceClass.addRec EquivalenceClass.get_ft
        EquivalenceClass.get_at
      rw [hF, hA]
      exact h1
    | some ac =>
      obtain ⟨h1, h2⟩ := good_append_ft hg hF hA
      refine ⟨_, ?_, h2⟩
      unfold EquivalenceClass.addRec EquivalenceClass.get_ft
        EquivalenceClass.get_at
      rw [hF, hA]
      exact h1
  | some fc =>
    cases hA : lookupA s.app_tuple_classes apt with
    | none =>
      obtain ⟨h1, h2⟩ := good_append_at hg hF hA
      refine ⟨_, ?_, h2⟩
      unfold EquivalenceClass.addRec EquivalenceClass.get_ft
        EquivalenceClass.get_at
      rw [hF, hA]
      exact h1
    | some ac =>
      by_cases he : fc = ac
      · subst he
        obtain ⟨h1, h2⟩ := good_same hg hF hA
        refine ⟨_, ?_, h2⟩
        unfold EquivalenceClass.addRec EquivalenceClass.get_ft
          EquivalenceClass.get_at
        rw [hF, hA]
        simp only [if_pos rfl]
        exact h1
      · obtain ⟨o, h0, hmo⟩ := hg.at_owner apt ac hA
        obtain ⟨hm, hap, hgood⟩ := good_merge hg hF hA he h0
        refine ⟨_, ?_, hgood⟩
        unfold EquivalenceClass.addRec EquivalenceClass.get_ft
          EquivalenceClass.get_at
        rw [hF, hA]
        simp only [if_neg he]
        rw [hm]
        exact hap

theorem ingestFrom_good : ∀ (more : List OBRecord) (rs : List OBRecord)
    (s : EqState), Good rs s →
    ∃ s', ingestFrom s more = some s' ∧ Good (rs ++ more) s' := by
  intro more
  induction more with
  | nil =>
    intro rs s hg
    exact ⟨s, rfl, by simpa using hg⟩
  | cons r more ih =>
    intro rs s hg
    obtain ⟨s1, h1, hg1⟩ := addRec_good hg r.1 r.2
    obtain ⟨s', h2, hg2⟩ := ih (rs ++ [(r.1, r.2)]) s1 hg1
    refine ⟨s', ?_, ?_⟩
    · unfold ingestFrom
      rw [h1]
      exact h2
    · rw [show rs ++ r :: more = (rs ++ [(r.1, r.2)]) ++ more by simp]
      exact hg2

theorem ingestAll_good : ∀ rs : List OBRecord,
    ∃ s, ingestAll rs = some s ∧ Good rs s := by
  intro rs
  obtain ⟨s, h1, h2⟩ := ingestFrom_good rs [] EquivalenceClass.emptyState
    good_empty
  exact ⟨s, h1, by simpa using h2⟩

theorem good_of_ingestAll {rs : List OBRecord} {s : EqState}
    (h : ingestAll rs = some s) : Good rs s := by
  obtain ⟨s', h', hg⟩ := ingestAll_good rs
  rw [h'] at h
  injection h with h
  rw [← h]
  exact hg

theorem touches_owner {s : EqState} {r : OBRecord} {k : RegKey} {i : Nat}
    (ht : touches r k) (h1 : owner s (.ft r.1) = some i)
    (h2 : owner s (.apt r.2) = some i) : owner s k = some i := by
  rcases ht with ht | ht
  · rw [ht]; exact h1
  · rw [ht]; exact h2

theorem owner_mem {rs : List OBRecord} {s : EqState} (hg : Good rs s)
    {k : RegKey} {i : Nat} (h : owner s k = some i) :
    ∃ c, lookupA s.eq_classes i = some c ∧ inClass c k := by
  cases k with
  | ft f => exact hg.ft_owner f i h
  | apt a => exact hg.at_owner a i h

/-- The central semantic characterisation: after ingesting `rs`, two
keys share a live class exactly when they are related by the
transitive closure of per-record co-occurrence. -/
theorem sameClass_iff_transGen {rs : List OBRecord} {s : EqState}
    (h : ingestAll rs = some s) (k k' : RegKey) :
    sameClass s k k' ↔ Relation.TransGen (cooccur rs) k k' := by
  have hg := good_of_ingestAll h
  constructor
  · rintro ⟨i, hk, hk'⟩
    obtain ⟨c, hc, hm⟩ := owner_mem hg hk
    obtain ⟨c', hc', hm'⟩ := owner_mem hg hk'
    rw [hc] at hc'
    injection hc' with hc'
    subst hc'
    exact hg.conn i c hc k k' hm hm'
  · intro htg
    have base : ∀ a b : RegKey, cooccur rs a b → sameClass s a b := by
      rintro a b ⟨r, hr, t1, t2⟩
      obtain ⟨i, h1, h2⟩ := hg.rec_owned r hr
      exact ⟨i, touches_owner t1 h1 h2, touches_owner t2 h1 h2⟩
    induction htg with
    | single hco => exact base _ _ hco
    | tail _ hco ih =>
      obtain ⟨i, ha, hb⟩ := ih
      obtain ⟨j, hb', hc⟩ := base _ _ hco
      rw [hb] at hb'
      injection hb' with hb'
      rw [← hb'] at hc
      exact ⟨i, ha, hc⟩

theorem cooccur_perm {rs rs' : List OBRecord} (hp : rs.Perm rs')
    (k k' : RegKey) : cooccur rs k k' ↔ cooccur rs' k k' := by
  unfold cooccur
  constructor
  · rintro ⟨r, hr, h1, h2⟩
    exact ⟨r, hp.mem_iff.mp hr, h1, h2⟩
  · rintro ⟨r, hr, h1, h2⟩
    exact ⟨r, hp.mem_iff.mpr hr, h1, h2⟩

theorem transGen_congr {α : Type} {r r' : α → α → Prop}
    (h : ∀ a b, r a b ↔ r' a b) {a b : α} :
    Relation.TransGen r a b ↔ Relation.TransGen r' a b :=
  ⟨fun x => x.mono (fun u v hu => (h u v).mp hu),
   fun x => x.mono (fun u v hu => (h u v).mpr hu)⟩

theorem stateMono_refl (s : EqState) : StateMono s s :=
  ⟨le_refl _, fun _ _ h => h,
   fun _ c' _ h => ⟨c', h, fun _ hf => hf, fun _ ha => ha⟩⟩

theorem stateMono_trans {s1 s2 s3 : EqState} (h12 : StateMono s1 s2)
    (h23 : StateMono s2 s3) : StateMono s1 s3 := by
  obtain ⟨hn12, hd12, hs12⟩ := h12
  obtain ⟨hn23, hd23, hs23⟩ := h23
  refine ⟨le_trans hn12 hn23, ?_, ?_⟩
  · intro i hi h
    exact hd23 i (lt_of_lt_of_le hi hn12) (hd12 i hi h)
  · intro i c3 hi h3
    obtain ⟨c2, h2, hf23, ha23⟩ := hs23 i c3 (lt_of_lt_of_le hi hn12) h3
    obtain ⟨c1, h1, hf12, ha12⟩ := hs12 i c2 hi h2
    exact ⟨c1, h1, fun f hf => hf23 f (hf12 f hf),
      fun a ha => ha23 a (ha12 a ha)⟩

theorem addRec_mono_of_good {rs : List OBRecord} {s : EqState}
    {ft : FormulationTuple} {apt : ApplicationTuple} (hg : Good rs s)
    {s' : EqState} (h : EquivalenceClass.addRec s ft apt = some s') :
    StateMono s s' := by
  cases hF : lookupA s.form_tuple_classes ft with
  | none =>
    cases hA : lookupA s.app_tuple_classes apt with
    | none =>
      obtain ⟨h1, _⟩ := good_create hg hF hA
      have heq : EquivalenceClass.addRec s ft apt =
          some (createdState s ft apt) := by
        unfold EquivalenceClass.addRec EquivalenceClass.get_ft
          EquivalenceClass.get_at
        rw [hF, hA]
        exact h1
      rw [heq] at h
      injection h with h
      rw [← h]
      refine ⟨Nat.le_succ _, ?_, ?_⟩
      · intro i hi hnone
        rw [show (createdState s ft apt).eq_classes =
              s.eq_classes ++ [(s.next_eq_id, ⟨[ft], [apt]⟩)] from rfl,
          lookupA_snoc _ _ _ (lookup_next_none hg),
          if_neg (Nat.ne_of_lt hi)]
        exact hnone
      · intro i c' hi hc'
        rw [show (createdState s ft apt).eq_classes =
              s.eq_classes ++ [(s.next_eq_id, ⟨[ft], [apt]⟩)] from rfl,
          lookupA_snoc _ _ _ (lookup_next_none hg),
          if_neg (Nat.ne_of_lt hi)] at hc'
        exact ⟨c', hc', fun _ hf => hf, fun _ ha => ha⟩
    | some ac =>
      obtain ⟨h1, _⟩ := good_append_ft hg hF hA
      have heq : EquivalenceClass.addRec s ft apt =
          some (appFTState s ac ft) := by
        unfold EquivalenceClass.addRec EquivalenceClass.get_ft
          EquivalenceClass.get_at
        rw [hF, hA]
        exact h1
      rw [heq] at h
      injection h with h
      rw [← h]
      have KC := fun i => lookupA_map_update s.eq_classes ac
        (fun c0 => (⟨addToSet c0.form_tuples ft, c0.app_tuples⟩ :
          EqClassData)) i
      refine ⟨le_refl _, ?_, ?_⟩
      · intro i hi hnone
        rw [show (appFTState s ac ft).eq_classes =
            s.eq_classes.map (fun p => if p.1 = ac then
              (p.1, ⟨addToSet p.2.form_tuples ft, p.2.app_tuples⟩) else p)
            from rfl, KC]
        by_cases hiac : i = ac
        · rw [if_pos hiac, hnone]
          rfl
        · rw [if_neg hiac]
          exact hnone
      · intro i c' hi hc'
        rw [show (appFTState s ac ft).eq_classes =
            s.eq_classes.map (fun p => if p.1 = ac then
              (p.1, ⟨addToSet p.2.form_tuples ft, p.2.app_tuples⟩) else p)
            from rfl, KC] at hc'
        by_cases hiac : i = ac
        · rw [if_pos hiac] at hc'
          cases h0 : lookupA s.eq_classes i with
          | none =>
            rw [h0] at hc'
            cases hc'
          | some c0 =>
            rw [h0] at hc'
            injection hc' with hc'
            refine ⟨c0, rfl, ?_, ?_⟩
            · intro f hf
              rw [← hc']
              exact (mem_addToSet _ _ _).mpr (Or.inl hf)
            · intro a ha
              rw [← hc']
              exact ha
        · rw [if_neg hiac] at hc'
          exact ⟨c', hc', fun _ hf => hf, fun _ ha => ha⟩
  | some fc =>
    cases hA : lookupA s.app_tuple_classes apt with
    | none =>
      obtain ⟨h1, _⟩ := good_append_at hg hF hA
      have heq : EquivalenceClass.addRec s ft apt =
          some (appATState s fc apt) := by
        unfold EquivalenceClass.addRec EquivalenceClass.get_ft
          EquivalenceClass.get_at
        rw [hF, hA]
        exact h1
      rw [heq] at h
      injection h with h
      rw [← h]
      have KC := fun i => lookupA_map_update s.eq_classes fc
        (fun c0 => (⟨c0.form_tuples, addToSet c0.app_tuples apt⟩ :
          EqClassData)) i
      refine ⟨le_refl _, ?_, ?_⟩
      · intro i hi hnone
        rw [show (appATState s fc apt).eq_classes =
            s.eq_classes.map (fun p => if p.1 = fc then
              (p.1, ⟨p.2.form_tuples, addToSet p.2.app_tuples apt⟩) else p)
            from rfl, KC]
        by_cases hifc : i = fc
        · rw [if_pos hifc, hnone]
          rfl
        · rw [if_neg hifc]
          exact hnone
      · intro i c' hi hc'
        rw [show (appATState s fc apt).eq_classes =
            s.eq_classes.map (fun p => if p.1 = fc then
              (p.1, ⟨p.2.form_tuples, addToSet p.2.app_tuples apt⟩) else p)
            from rfl, KC] at hc'
        by_cases hifc : i = fc
        · rw [if_pos hifc] at hc'
          cases h0 : lookupA s.eq_classes i with
          | none =>
            rw [h0] at hc'
            cases hc'
          | some c0 =>
            rw [h0] at hc'
            injection hc' with hc'
            refine ⟨c0, rfl, ?_, ?_⟩
            · intro f hf
              rw [← hc']
              exact hf
            · intro a ha
              rw [← hc']
              exact (mem_addToSet _ _ _).mpr (Or.inl ha)
        · rw [if_neg hifc] at hc'
          exact ⟨c', hc', fun _ hf => hf, fun _ ha => ha⟩
    | some ac =>
      by_cases he : fc = ac
      · subst he
        obtain ⟨h1, _⟩ := good_same hg hF hA
        have heq : EquivalenceClass.addRec s ft apt = some s := by
          unfold EquivalenceClass.addRec EquivalenceClass.get_ft
            EquivalenceClass.get_at
          rw [hF, hA]
          simp only [if_pos rfl]
          exact h1
        rw [heq] at h
        injection h with h
        rw [← h]
        exact stateMono_refl s
      · obtain ⟨o, h0, hmo⟩ := hg.at_owner apt ac hA
        obtain ⟨hm, hap, _⟩ := good_merge hg hF hA he h0
        have heq : EquivalenceClass.addRec s ft apt =
            some (mergedState s fc ac o) := by
          unfold EquivalenceClass.addRec EquivalenceClass.get_ft
            EquivalenceClass.get_at
          rw [hF, hA]
          simp only [if_neg he]
          rw [hm]
          exact hap
        rw [heq] at h
        injection h with h
        rw [← h]
        have KM : ∀ i, lookupA (mergedState s fc ac o).eq_classes i =
            if i = ac then none
            else if i = fc then (lookupA s.eq_classes i).map
              (fun c0 => ⟨o.form_tuples.foldl addToSet c0.form_tuples,
                          o.app_tuples.foldl addToSet c0.app_tuples⟩)
            else lookupA s.eq_classes i := by
          intro i
          rw [show (mergedState s fc ac o).eq_classes =
              (s.eq_classes.map (fun p => if p.1 = fc then
                (p.1, ⟨o.form_tuples.foldl addToSet p.2.form_tuples,
                       o.app_tuples.foldl addToSet p.2.app_tuples⟩)
                else p)).filter (fun p => p.1 ≠ ac) from rfl,
            lookupA_filter_ne,
            lookupA_map_update s.eq_classes fc
              (fun c0 => ⟨o.form_tuples.foldl addToSet c0.form_tuples,
                          o.app_tuples.foldl addToSet c0.app_tuples⟩)]
        refine ⟨le_refl _, ?_, ?_⟩
        · intro i hi hnone
          rw [KM]
          by_cases hiac : i = ac
          · rw [if_pos hiac]
          · rw [if_neg hiac]
            by_cases hifc : i = fc
            · rw [if_pos hifc, hnone]
              rfl
            · rw [if_neg hifc]
              exact hnone
        · intro i c' hi hc'
          rw [KM] at hc'
          by_cases hiac : i = ac
          · rw [if_pos hiac] at hc'
            cases hc'
          · rw [if_neg hiac] at hc'
            by_cases hifc : i = fc
            · rw [if_pos hifc] at hc'
              cases h2 : lookupA s.eq_classes i with
              | none =>
                rw [h2] at hc'
                cases hc'
              | some c0 =>
                rw [h2] at hc'
                injection hc' with hc'
                refine ⟨c0, rfl, ?_, ?_⟩
                · intro f hf
                  rw [← hc']
                  exact (mem_foldl_addToSet _ _ _).mpr (Or.inl hf)
                · intro a ha
                  rw [← hc']
                  exact (mem_foldl_addToSet _ _ _).mpr (Or.inl ha)
            · rw [if_neg hifc] at hc'
              exact ⟨c', hc', fun _ hf => hf, fun _ ha => ha⟩

theorem ingestFrom_cons (s : EqState) (r : OBRecord) (more : List OBRecord) :
    ingestFrom s (r :: more) =
      (EquivalenceClass.addRec s r.1 r.2).bind (fun s1 => ingestFrom s1 more)
    := by
  cases h : EquivalenceClass.addRec s r.1 r.2 with
  | none => simp [ingestFrom, h]
  | some s1 => simp [ingestFrom, h]

theorem ingestFrom_good_mono {rs : List OBRecord} {s : EqState}
    (hg : Good rs s) :
    ∀ more s', ingestFrom s more = some s' →
      StateMono s s' ∧ Good (rs ++ more) s' := by
  intro more
  induction more generalizing rs s with
  | nil =>
    intro s' h
    rw [show ingestFrom s [] = some s from rfl] at h
    injection h with h
    rw [← h]
    exact ⟨stateMono_refl s, by simpa using hg⟩
  | cons r more ih =>
    intro s' h
    rw [ingestFrom_cons] at h
    cases h1 : EquivalenceClass.addRec s r.1 r.2 with
    | none =>
      rw [h1] at h
      cases h
    | some s1 =>
      rw [h1] at h
      simp only [Option.some_bind] at h
      obtain ⟨s1', heq, hg1⟩ := addRec_good hg r.1 r.2
      rw [h1] at heq
      injection heq with heq
      rw [← heq] at hg1
      have hmono1 := addRec_mono_of_good hg h1
      obtain ⟨hmono2, hg2⟩ := ih hg1 s' h
      refine ⟨stateMono_trans hmono1 hmono2, ?_⟩
      rw [show rs ++ r :: more = (rs ++ [r]) ++ more by simp]
      exact hg2

/-! ## Claim theorems for the equivalence registry -/

/-- C1: Ingestion-order independence. Ingestion never fails; after
ingesting a stream `rs` the co-membership partition of formulation and
application keys equals the transitive closure of the relation "the
two keys co-occur on the same input record"; and for any two
permutations of the same finite collection of records the resulting
partitions agree on every pair of keys (only the surviving class id
may differ). -/
theorem c1_order_independent_partition :
    (∀ rs : List OBRecord, (ingestAll rs).isSome) ∧
    (∀ (rs : List OBRecord) (s : EqState), ingestAll rs = some s →
      ∀ k k' : RegKey,
        sameClass s k k' ↔ Relation.TransGen (cooccur rs) k k') ∧
    (∀ (rs rs' : List OBRecord) (s s' : EqState), rs.Perm rs' →
      ingestAll rs = some s → ingestAll rs' = some s' →
      ∀ k k' : RegKey, sameClass s k k' ↔ sameClass s' k k') := by
  refine ⟨?_, ?_, ?_⟩
  · intro rs
    obtain ⟨s, h, _⟩ := ingestAll_good rs
    rw [h]
    rfl
  · exact fun rs s h k k' => sameClass_iff_transGen h k k'
  · intro rs rs' s s' hp h h' k k'
    rw [sameClass_iff_transGen h, sameClass_iff_transGen h',
      transGen_congr (cooccur_perm hp)]

/-- C2: Registry invariants. In every state reachable by ingestion the
key → class dictionaries and the class membership sets are mutually
consistent (so each formulation and each application key belongs to at
most one live class and there are no dangling references after
merges), live class ids are distinct and below `next_eq_id`, and along
any continuation of the run an absorbed (dead) id below `next_eq_id`
is never made live again while a surviving id keeps its class, whose
membership only grows. -/
theorem c2_registry_invariants (rs : List OBRecord) (s : EqState)
    (h : ingestAll rs = some s) :
    (∀ f i, lookupA s.form_tuple_classes f = some i →
        ∃ c, lookupA s.eq_classes i = some c ∧ f ∈ c.form_tuples) ∧
    (∀ a i, lookupA s.app_tuple_classes a = some i →
        ∃ c, lookupA s.eq_classes i = some c ∧ a ∈ c.app_tuples) ∧
    (∀ i c, lookupA s.eq_classes i = some c →
        (∀ f ∈ c.form_tuples, lookupA s.form_tuple_classes f = some i) ∧
        (∀ a ∈ c.app_tuples, lookupA s.app_tuple_classes a = some i)) ∧
    (∀ f i j ci cj, lookupA s.eq_classes i = some ci →
        lookupA s.eq_classes j = some cj →
        f ∈ ci.form_tuples → f ∈ cj.form_tuples → i = j) ∧
    (∀ a i j ci cj, lookupA s.eq_classes i = some ci →
        lookupA s.eq_classes j = some cj →
        a ∈ ci.app_tuples → a ∈ cj.app_tuples → i = j) ∧
    (∀ p ∈ s.eq_classes, p.1 < s.next_eq_id) ∧
    (s.eq_classes.map Prod.fst).Nodup ∧
    (∀ more s', ingestFrom s more = some s' →
      s.next_eq_id ≤ s'.next_eq_id ∧
      (∀ i, i < s.next_eq_id → lookupA s.eq_classes i = none →
          lookupA s'.eq_classes i = none) ∧
      (∀ i c', i < s.next_eq_id → lookupA s'.eq_classes i = some c' →
          ∃ c, lookupA s.eq_classes i = some c ∧
            (∀ f ∈ c.form_tuples, f ∈ c'.form_tuples) ∧
            (∀ a ∈ c.app_tuples, a ∈ c'.app_tuples))) := by
  have hg := good_of_ingestAll h
  refine ⟨hg.ft_owner, hg.at_owner,
    fun i c hc => ⟨hg.ft_mem i c hc, hg.at_mem i c hc⟩, ?_, ?_,
    hg.lt_next, hg.keys_nodup, ?_⟩
  · intro f i j ci cj hci hcj hfi hfj
    have h1 := hg.ft_mem i ci hci f hfi
    have h2 := hg.ft_mem j cj hcj f hfj
    rw [h1] at h2
    exact Option.some.inj h2
  · intro a i j ci cj hci hcj hai haj
    have h1 := hg.at_mem i ci hci a hai
    have h2 := hg.at_mem j cj hcj a haj
    rw [h1] at h2
    exact Option.some.inj h2
  · intro more s' hmore
    exact (ingestFrom_good_mono hg more s' hmore).1

/-- C4: Idempotence of ingestion. In any reachable state, re-ingesting
a record that was already ingested returns the state completely
unchanged (hence membership sets and the number of live classes are
unchanged), and every key touched by an ingested record has a
non-`none` lookup. -/
theorem c4_ingest_idempotent (rs : List OBRecord) (s : EqState)
    (ft : FormulationTuple) (apt : ApplicationTuple)
    (h : ingestAll rs = some s) (hmem : (ft, apt) ∈ rs) :
    EquivalenceClass.addRec s ft apt = some s ∧
    (∀ k : RegKey, (∃ r ∈ rs, touches r k) → (owner s k).isSome) := by
  have hg := good_of_ingestAll h
  constructor
  · obtain ⟨i, h1, h2⟩ := hg.rec_owned (ft, apt) hmem
    have hF : lookupA s.form_tuple_classes ft = some i := h1
    have hA : lookupA s.app_tuple_classes apt = some i := h2
    obtain ⟨hap, _⟩ := good_same hg hF hA
    unfold EquivalenceClass.addRec EquivalenceClass.get_ft
      EquivalenceClass.get_at
    rw [hF, hA]
    simp only [if_pos rfl]
    exact hap
  · rintro k ⟨r, hr, ht⟩
    obtain ⟨i, h1, h2⟩ := hg.rec_owned r hr
    rw [touches_owner ht h1 h2]
    rfl

/-- C3: Merge correctness. In a registry holding exactly the two
classes `{f1} / {a1}` (id `i`) and `{f2} / {a2}` (id `j`), ingesting
the record `(f1, a2)` leaves a single live class, with id `i`, whose
formulation keys are `{f1, f2}` and application keys `{a1, a2}`; the
absorbed class `j` is gone from the live registry. -/
theorem c3_merge_two_classes (f1 f2 : FormulationTuple)
    (a1 a2 : ApplicationTuple) (i j : Nat) (s : EqState)
    (hcls : s.eq_classes = [(i, ⟨[f1], [a1]⟩), (j, ⟨[f2], [a2]⟩)])
    (hf1 : lookupA s.form_tuple_classes f1 = some i)
    (ha2 : lookupA s.app_tuple_classes a2 = some j)
    (hij : i ≠ j) (hf : f1 ≠ f2) (ha : a1 ≠ a2) :
    ∃ s', EquivalenceClass.addRec s f1 a2 = some s' ∧
      s'.eq_classes.map Prod.fst = [i] ∧
      (∃ c, lookupA s'.eq_classes i = some c ∧
        (∀ x, x ∈ c.form_tuples ↔ x = f1 ∨ x = f2) ∧
        (∀ x, x ∈ c.app_tuples ↔ x = a1 ∨ x = a2)) ∧
      lookupA s'.eq_classes j = none := by
  have hff : ¬ f2 = f1 := fun hh => hf hh.symm
  have haa : ¬ a2 = a1 := fun hh => ha hh.symm
  have hji : ¬ j = i := fun hh => hij hh.symm
  have hgetj : EquivalenceClass.getClass s j = some ⟨[f2], [a2]⟩ := by
    unfold EquivalenceClass.getClass
    rw [hcls]
    simp [lookupA, hij]
  have hmerge : EquivalenceClass.mergeOp s i j =
      some (mergedState s i j ⟨[f2], [a2]⟩) := by
    unfold EquivalenceClass.mergeOp
    rw [hgetj]
    rfl
  have hMcls : (mergedState s i j ⟨[f2], [a2]⟩).eq_classes =
      [(i, ⟨[f1, f2], [a1, a2]⟩)] := by
    rw [show (mergedState s i j ⟨[f2], [a2]⟩).eq_classes =
        (s.eq_classes.map (fun p => if p.1 = i then
          (p.1, ⟨[f2].foldl addToSet p.2.form_tuples,
                 [a2].foldl addToSet p.2.app_tuples⟩) else p)).filter
          (fun p => p.1 ≠ j) from rfl, hcls]
    simp [hji, hij, addToSet, hff, haa]
  have happ : EquivalenceClass.appendOp (mergedState s i j ⟨[f2], [a2]⟩)
      i f1 a2 = some (mergedState s i j ⟨[f2], [a2]⟩) := by
    unfold EquivalenceClass.appendOp EquivalenceClass.getClass
    rw [hMcls]
    simp [lookupA]
  refine ⟨mergedState s i j ⟨[f2], [a2]⟩, ?_, ?_, ?_, ?_⟩
  · unfold EquivalenceClass.addRec EquivalenceClass.get_ft
      EquivalenceClass.get_at
    rw [hf1, ha2]
    simp only [if_neg hij]
    rw [hmerge]
    exact happ
  · rw [hMcls]
    rfl
  · refine ⟨⟨[f1, f2], [a1, a2]⟩, ?_, ?_, ?_⟩
    · rw [hMcls]
      simp [lookupA]
    · intro x
      simp
    · intro x
      simp
  · rw [hMcls]
    simp [lookupA, hij]

theorem insertLe_perm {α : Type} (le : α → α → Bool) (a : α) :
    ∀ l : List α, (insertLe le a l).Perm (a :: l) := by
  intro l
  induction l with
  | nil => exact List.Perm.refl _
  | cons b bs ih =>
    unfold insertLe
    by_cases h : le a b
    · rw [if_pos h]
    · rw [if_neg h]
      exact (List.Perm.cons b ih).trans (List.Perm.swap a b bs)

theorem sortLe_perm {α : Type} (le : α → α → Bool) :
    ∀ l : List α, (sortLe le l).Perm l := by
  intro l
  induction l with
  | nil => exact List.Perm.refl _
  | cons a as ih =>
    exact (insertLe_perm le a (sortLe le as)).trans (List.Perm.cons a ih)

theorem ownOfF_none {recs : List SummaryRec} {f : FormulationTuple} :
    ownOfF recs f = none ↔ ∀ r ∈ recs, f ∉ r.2.1 := by
  induction recs with
  | nil => simp [ownOfF]
  | cons r more ih =>
    unfold ownOfF
    by_cases h : f ∈ r.2.1
    · simp [h]
    · simp [h, ih]

theorem ownOfA_none {recs : List SummaryRec} {a : ApplicationTuple} :
    ownOfA recs a = none ↔ ∀ r ∈ recs, a ∉ r.2.2 := by
  induction recs with
  | nil => simp [ownOfA]
  | cons r more ih =>
    unfold ownOfA
    by_cases h : a ∈ r.2.2
    · simp [h]
    · simp [h, ih]

theorem addTuples_spec {α : Type} [DecidableEq α] (cid : Nat) :
    ∀ (xs : List α) (m : List (α × Nat)) (acc : List α),
      (∀ x ∈ xs, lookupA m x = none) → xs.Nodup →
      (∀ x ∈ xs, x ∉ acc) →
      EquivalenceClass.addTuples cid xs m acc =
        some (xs.foldl (fun m' x => setA m' x cid) m, acc ++ xs) := by
  intro xs
  induction xs with
  | nil =>
    intro m acc _ _ _
    simp [EquivalenceClass.addTuples]
  | cons x rest ih =>
    intro m acc hfresh hnd hacc
    unfold EquivalenceClass.addTuples
    rw [hfresh x (List.mem_cons_self _ _)]
    simp only [Option.isSome_none, Bool.false_eq_true, if_false]
    have hnd' := List.nodup_cons.mp hnd
    have h1 : ∀ y ∈ rest, lookupA (setA m x cid) y = none := by
      intro y hy
      have hyx : ¬ y = x := by
        intro he
        rw [he] at hy
        exact hnd'.1 hy
      rw [lookupA_setA, if_neg hyx]
      exact hfresh y (List.mem_cons_of_mem _ hy)
    have h2 : ∀ y ∈ rest, y ∉ addToSet acc x := by
      intro y hy hmem
      rcases (mem_addToSet _ _ _).mp hmem with h | h
      · exact hacc y (List.mem_cons_of_mem _ hy) h
      · rw [h] at hy
        exact hnd'.1 hy
    rw [ih (setA m x cid) (addToSet acc x) h1 hnd'.2 h2]
    have hax : addToSet acc x = acc ++ [x] := by
      unfold addToSet
      rw [if_neg (hacc x (List.mem_cons_self _ _))]
    rw [hax]
    simp

theorem lookupA_map_value {β γ : Type} (l : List (Nat × β)) (g : β → γ)
    (i : Nat) :
    lookupA (l.map (fun p => (p.1, g p.2))) i = (lookupA l i).map g := by
  induction l with
  | nil => simp [lookupA]
  | cons p ps ih =>
    by_cases hp : p.1 = i
    · simp [lookupA, hp]
    · simp [lookupA, hp, ih]

theorem lookupA_of_mem_nodup {β : Type} {l : List (Nat × β)}
    (hnd : (l.map Prod.fst).Nodup) {p : Nat × β} (hp : p ∈ l) :
    lookupA l p.1 = some p.2 := by
  induction l with
  | nil => cases hp
  | cons q qs ih =>
    rcases List.mem_cons.mp hp with h | h
    · rw [← h]
      simp [lookupA]
    · have hnd' := List.nodup_cons.mp (show (q.1 :: qs.map Prod.fst).Nodup
        from hnd)
      have hne : ¬ q.1 = p.1 := by
        intro he
        exact hnd'.1 (he ▸ List.mem_map_of_mem Prod.fst h)
      simp only [lookupA, hne, if_false]
      exact ih hnd'.2 h

theorem ownOfF_some_mem {recs : List SummaryRec} {f : FormulationTuple}
    {i : Nat} (h : ownOfF recs f = some i) :
    ∃ r ∈ recs, f ∈ r.2.1 ∧ r.1 = i := by
  induction recs with
  | nil => cases h
  | cons r more ih =>
    unfold ownOfF at h
    by_cases hm : f ∈ r.2.1
    · rw [if_pos hm] at h
      injection h with h
      exact ⟨r, List.mem_cons_self _ _, hm, h⟩
    · rw [if_neg hm] at h
      obtain ⟨r', hr', hm', hi⟩ := ih h
      exact ⟨r', List.mem_cons_of_mem _ hr', hm', hi⟩

theorem ownOfA_some_mem {recs : List SummaryRec} {a : ApplicationTuple}
    {i : Nat} (h : ownOfA recs a = some i) :
    ∃ r ∈ recs, a ∈ r.2.2 ∧ r.1 = i := by
  induction recs with
  | nil => cases h
  | cons r more ih =>
    unfold ownOfA at h
    by_cases hm : a ∈ r.2.2
    · rw [if_pos hm] at h
      injection h with h
      exact ⟨r, List.mem_cons_self _ _, hm, h⟩
    · rw [if_neg hm] at h
      obtain ⟨r', hr', hm', hi⟩ := ih h
      exact ⟨r', List.mem_cons_of_mem _ hr', hm', hi⟩

theorem loadFrom_spec : ∀ (recs : List SummaryRec) (sp : EqState),
    (∀ r ∈ recs, ∀ f ∈ r.2.1, lookupA sp.form_tuple_classes f = none) →
    (∀ r ∈ recs, ∀ a ∈ r.2.2, lookupA sp.app_tuple_classes a = none) →
    (∀ r ∈ recs, lookupA sp.eq_classes r.1 = none) →
    recs.Pairwise (fun r r' => ¬ r.1 = r'.1 ∧
      (∀ f ∈ r.2.1, f ∉ r'.2.1) ∧ (∀ a ∈ r.2.2, a ∉ r'.2.2)) →
    (∀ r ∈ recs, r.2.1.Nodup ∧ r.2.2.Nodup) →
    ∃ s', loadFrom sp recs = some s' ∧
      s'.eq_classes = sp.eq_classes ++
        recs.map (fun r => (r.1, ⟨r.2.1, r.2.2⟩)) ∧
      (∀ f, lookupA s'.form_tuple_classes f =
        match ownOfF recs f with
        | some i => some i
        | none => lookupA sp.form_tuple_classes f) ∧
      (∀ a, lookupA s'.app_tuple_classes a =
        match ownOfA recs a with
        | some i => some i
        | none => lookupA sp.app_tuple_classes a) := by
  intro recs
  induction recs with
  | nil =>
    intro sp _ _ _ _ _
    exact ⟨sp, rfl, by simp, fun f => by simp [ownOfF],
      fun a => by simp [ownOfA]⟩
  | cons r more ih =>
    intro sp hF hA hC hpw hnd
    have hnd0 := hnd r (List.mem_cons_self _ _)
    have hpw' := List.pairwise_cons.mp hpw
    have hcr : EquivalenceClass.create sp r.2.1 r.2.2 (some r.1) =
        some ⟨sp.eq_classes ++ [(r.1, ⟨r.2.1, r.2.2⟩)],
              max sp.next_eq_id (r.1 + 1),
              r.2.1.foldl (fun m' x => setA m' x r.1) sp.form_tuple_classes,
              r.2.2.foldl (fun m' x => setA m' x r.1)
                sp.app_tuple_classes⟩ := by
      simp only [EquivalenceClass.create, Option.getD_some]
      rw [addTuples_spec r.1 r.2.1 sp.form_tuple_classes []
        (hF r (List.mem_cons_self _ _)) hnd0.1
        (fun x _ hx => List.not_mem_nil x hx)]
      rw [addTuples_spec r.1 r.2.2 sp.app_tuple_classes []
        (hA r (List.mem_cons_self _ _)) hnd0.2
        (fun x _ hx => List.not_mem_nil x hx)]
      rw [hC r (List.mem_cons_self _ _)]
      simp
    set sp' : EqState :=
      ⟨sp.eq_classes ++ [(r.1, ⟨r.2.1, r.2.2⟩)],
       max sp.next_eq_id (r.1 + 1),
       r.2.1.foldl (fun m' x => setA m' x r.1) sp.form_tuple_classes,
       r.2.2.foldl (fun m' x => setA m' x r.1) sp.app_tuple_classes⟩
      with hsp'
    have hF' : ∀ r' ∈ more, ∀ f ∈ r'.2.1,
        lookupA sp'.form_tuple_classes f = none := by
      intro r' hr' f hf
      rw [show sp'.form_tuple_classes =
          r.2.1.foldl (fun m' x => setA m' x r.1) sp.form_tuple_classes
          from rfl, lookupA_foldl_setA]
      rw [if_neg (fun hm => (hpw'.1 r' hr').2.1 f hm hf)]
      exact hF r' (List.mem_cons_of_mem _ hr') f hf
    have hA' : ∀ r' ∈ more, ∀ a ∈ r'.2.2,
        lookupA sp'.app_tuple_classes a = none := by
      intro r' hr' a ha
      rw [show sp'.app_tuple_classes =
          r.2.2.foldl (fun m' x => setA m' x r.1) sp.app_tuple_classes
          from rfl, lookupA_foldl_setA]
      rw [if_neg (fun hm => (hpw'.1 r' hr').2.2 a hm ha)]
      exact hA r' (List.mem_cons_of_mem _ hr') a ha
    have hC' : ∀ r' ∈ more, lookupA sp'.eq_classes r'.1 = none := by
      intro r' hr'
      rw [show sp'.eq_classes = sp.eq_classes ++ [(r.1, ⟨r.2.1, r.2.2⟩)]
          from rfl, lookupA_snoc _ _ _ (hC r (List.mem_cons_self _ _))]
      rw [if_neg (fun hm => (hpw'.1 r' hr').1 hm.symm)]
      exact hC r' (List.mem_cons_of_mem _ hr')
    obtain ⟨s', hload, hcls, hmf, hma⟩ := ih sp' hF' hA' hC' hpw'.2
      (fun r' hr' => hnd r' (List.mem_cons_of_mem _ hr'))
    refine ⟨s', ?_, ?_, ?_, ?_⟩
    · unfold loadFrom
      rw [hcr]
      exact hload
    · rw [hcls]
      rw [show sp'.eq_classes = sp.eq_classes ++ [(r.1, ⟨r.2.1, r.2.2⟩)]
          from rfl]
      simp
    · intro f
      rw [hmf f]
      rw [show ownOfF (r :: more) f =
          if f ∈ r.2.1 then some r.1 else ownOfF more f from rfl]
      by_cases hm : f ∈ r.2.1
      · rw [if_pos hm]
        have hnone : ownOfF more f = none :=
          ownOfF_none.mpr (fun r' hr' hmm => (hpw'.1 r' hr').2.1 f hm hmm)
        simp only [hnone]
        rw [lookupA_foldl_setA, if_pos hm]
      · rw [if_neg hm]
        cases h2 : ownOfF more f with
        | some i => simp only [h2]
        | none =>
          simp only [h2]
          rw [lookupA_foldl_setA, if_neg hm]
    · intro a
      rw [hma a]
      rw [show ownOfA (r :: more) a =
          if a ∈ r.2.2 then some r.1 else ownOfA more a from rfl]
      by_cases hm : a ∈ r.2.2
      · rw [if_pos hm]
        have hnone : ownOfA more a = none :=
          ownOfA_none.mpr (fun r' hr' hmm => (hpw'.1 r' hr').2.2 a hm hmm)
        simp only [hnone]
        rw [lookupA_foldl_setA, if_pos hm]
      · rw [if_neg hm]
        cases h2 : ownOfA more a with
        | some i => simp only [h2]
        | none =>
          simp only [h2]
          rw [lookupA_foldl_setA, if_neg hm]

/-- C5: Serialization round trip. Dumping every live class of a
reachable registry with `to_dict` and reloading the records into an
empty registry (each class re-created with its stored id, as
`load_summary` does) succeeds and reconstructs a registry with the
same live ids in the same order, the same membership sets for every
id, and the same key → class-id assignment. -/
theorem c5_round_trip (rs : List OBRecord) (s : EqState)
    (h : ingestAll rs = some s) :
    ∃ s', load_summary (summaryOf s) = some s' ∧
      s'.eq_classes.map Prod.fst = s.eq_classes.map Prod.fst ∧
      (∀ i c', lookupA s'.eq_classes i = some c' →
        ∃ c, lookupA s.eq_classes i = some c ∧
          (∀ x, x ∈ c'.form_tuples ↔ x ∈ c.form_tuples) ∧
          (∀ x, x ∈ c'.app_tuples ↔ x ∈ c.app_tuples)) ∧
      (∀ i c, lookupA s.eq_classes i = some c →
        ∃ c', lookupA s'.eq_classes i = some c' ∧
          (∀ x, x ∈ c'.form_tuples ↔ x ∈ c.form_tuples) ∧
          (∀ x, x ∈ c'.app_tuples ↔ x ∈ c.app_tuples)) ∧
      (∀ f, lookupA s'.form_tuple_classes f =
        lookupA s.form_tuple_classes f) ∧
      (∀ a, lookupA s'.app_tuple_classes a =
        lookupA s.app_tuple_classes a) := by
  have hg := good_of_ingestAll h
  have hlk : ∀ p ∈ s.eq_classes, lookupA s.eq_classes p.1 = some p.2 :=
    fun p hp => lookupA_of_mem_nodup hg.keys_nodup hp
  have hpairw : (summaryOf s).Pairwise (fun r r' => ¬ r.1 = r'.1 ∧
      (∀ f ∈ r.2.1, f ∉ r'.2.1) ∧ (∀ a ∈ r.2.2, a ∉ r'.2.2)) := by
    unfold summaryOf
    rw [List.pairwise_map]
    have hK : s.eq_classes.Pairwise
        (fun p q : Nat × EqClassData => p.1 ≠ q.1) := by
      have := hg.keys_nodup
      rw [List.Nodup, List.pairwise_map] at this
      exact this
    refine hK.imp_of_mem ?_
    intro p q hp hq hne
    refine ⟨hne, ?_, ?_⟩
    · intro f hf hf'
      have hf1 : f ∈ p.2.form_tuples :=
        (sortLe_perm ftLeB p.2.form_tuples).mem_iff.mp hf
      have hf2 : f ∈ q.2.form_tuples :=
        (sortLe_perm ftLeB q.2.form_tuples).mem_iff.mp hf'
      have e1 := hg.ft_mem p.1 p.2 (hlk p hp) f hf1
      have e2 := hg.ft_mem q.1 q.2 (hlk q hq) f hf2
      rw [e1] at e2
      exact hne (Option.some.inj e2)
    · intro a ha ha'
      have ha1 : a ∈ p.2.app_tuples :=
        (sortLe_perm atLeB p.2.app_tuples).mem_iff.mp ha
      have ha2 : a ∈ q.2.app_tuples :=
        (sortLe_perm atLeB q.2.app_tuples).mem_iff.mp ha'
      have e1 := hg.at_mem p.1 p.2 (hlk p hp) a ha1
      have e2 := hg.at_mem q.1 q.2 (hlk q hq) a ha2
      rw [e1] at e2
      exact hne (Option.some.inj e2)
  have hmemnd : ∀ r ∈ summaryOf s, r.2.1.Nodup ∧ r.2.2.Nodup := by
    intro r hr
    obtain ⟨p, hp, hpd⟩ := List.mem_map.mp hr
    obtain ⟨h1, h2⟩ := hg.mem_nodup p.1 p.2 (hlk p hp)
    rw [← hpd]
    exact ⟨(sortLe_perm ftLeB p.2.form_tuples).nodup_iff.mpr h1,
      (sortLe_perm atLeB p.2.app_tuples).nodup_iff.mpr h2⟩
  obtain ⟨s', hload, hcls, hmf, hma⟩ := loadFrom_spec (summaryOf s)
    EquivalenceClass.emptyState
    (fun _ _ _ _ => rfl) (fun _ _ _ _ => rfl) (fun _ _ => rfl)
    hpairw hmemnd
  have hclseq : s'.eq_classes = s.eq_classes.map
      (fun p => (p.1, ⟨sortLe ftLeB p.2.form_tuples,
                      sortLe atLeB p.2.app_tuples⟩)) := by
    rw [hcls]
    unfold summaryOf
    rw [List.map_map]
    rw [show EquivalenceClass.emptyState.eq_classes =
        ([] : List (Nat × EqClassData)) from rfl, List.nil_append]
    apply List.map_congr_left
    intro p _
    rfl
  have hlkS : ∀ i, lookupA s'.eq_classes i =
      (lookupA s.eq_classes i).map
        (fun c => ⟨sortLe ftLeB c.form_tuples,
                   sortLe atLeB c.app_tuples⟩) := by
    intro i
    rw [hclseq]
    exact lookupA_map_value s.eq_classes
      (fun c => ({ form_tuples := sortLe ftLeB c.form_tuples,
                   app_tuples := sortLe atLeB c.app_tuples } : EqClassData)) i
  refine ⟨s', hload, ?_, ?_, ?_, ?_, ?_⟩
  · rw [hclseq, List.map_map]
    apply List.map_congr_left
    intro p _
    rfl
  · intro i c' hc'
    rw [hlkS] at hc'
    cases h0 : lookupA s.eq_classes i with
    | none =>
      rw [h0] at hc'
      cases hc'
    | some c =>
      rw [h0] at hc'
      injection hc' with hc'
      refine ⟨c, rfl, ?_, ?_⟩
      · intro x
        rw [← hc']
        exact (sortLe_perm ftLeB c.form_tuples).mem_iff
      · intro x
        rw [← hc']
        exact (sortLe_perm atLeB c.app_tuples).mem_iff
  · intro i c hc
    refine ⟨⟨sortLe ftLeB c.form_tuples, sortLe atLeB c.app_tuples⟩, ?_,
      ?_, ?_⟩
    · rw [hlkS, hc]
      rfl
    · intro x
      exact (sortLe_perm ftLeB c.form_tuples).mem_iff
    · intro x
      exact (sortLe_perm atLeB c.app_tuples).mem_iff
  · intro f
    rw [hmf f]
    cases hO : ownOfF (summaryOf s) f with
    | some i =>
      simp only [hO]
      obtain ⟨r, hr, hmem, hid⟩ := ownOfF_some_mem hO
      obtain ⟨p, hp, hpd⟩ := List.mem_map.mp hr
      have hf1 : f ∈ p.2.form_tuples := by
        rw [← hpd] at hmem
        exact (sortLe_perm ftLeB p.2.form_tuples).mem_iff.mp hmem
      have e1 := hg.ft_mem p.1 p.2 (hlk p hp) f hf1
      rw [e1]
      rw [← hid, ← hpd]
      rfl
    | none =>
      simp only [hO]
      cases hLs : lookupA s.form_tuple_classes f with
      | none => rfl
      | some j =>
        obtain ⟨c, hcj, hmem⟩ := hg.ft_owner f j hLs
        have hpj : (j, c) ∈ s.eq_classes := lookupA_mem hcj
        have hsm : f ∈ (to_dict (j, c)).2.1 :=
          (sortLe_perm ftLeB c.form_tuples).mem_iff.mpr hmem
        exact absurd hsm (ownOfF_none.mp hO _
          (List.mem_map_of_mem to_dict hpj))
  · intro a
    rw [hma a]
    cases hO : ownOfA (summaryOf s) a with
    | some i =>
      simp only [hO]
      obtain ⟨r, hr, hmem, hid⟩ := ownOfA_some_mem hO
      obtain ⟨p, hp, hpd⟩ := List.mem_map.mp hr
      have ha1 : a ∈ p.2.app_tuples := by
        rw [← hpd] at hmem
        exact (sortLe_perm atLeB p.2.app_tuples).mem_iff.mp hmem
      have e1 := hg.at_mem p.1 p.2 (hlk p hp) a ha1
      rw [e1]
      rw [← hid, ← hpd]
      rfl
    | none =>
      simp only [hO]
      cases hLs : lookupA s.app_tuple_classes a with
      | none => rfl
      | some j =>
        obtain ⟨c, hcj, hmem⟩ := hg.at_owner a j hLs
        have hpj : (j, c) ∈ s.eq_classes := lookupA_mem hcj
        have hsm : a ∈ (to_dict (j, c)).2.2 :=
          (sortLe_perm atLeB c.app_tuples).mem_iff.mpr hmem
        exact absurd hsm (ownOfA_none.mp hO _
          (List.mem_map_of_mem to_dict hpj))

/-! ## Claim theorems for key construction -/

/-- C6 counterexample: a row with a single ingredient whose strength
text segments into two tokens (which cannot match the ingredient count
of one). Contrary to the claim, `form_tuple` does not raise: it
returns a key (the single-ingredient replication path). -/
theorem c6_counterexample :
    (splitSemiWs "A").length = 1 ∧
    parse_strengths "1MG;2MG" (splitSemiWs "A").length =
      some ["1MG", "2MG"] ∧
    form_tuple "A" "TAB;ORAL" "1MG;2MG" ≠ none := by
  decide

/-- C6 (amended): if the ingredient list has at least two entries,
then an unsegmentable strength text (`parse_strengths` raising) and a
post-parse length disagreement are both fatal (`none`), and every
successfully constructed `FormulationTuple` joins equally long
ingredient and strength columns (no mismatched tuple is ever
constructed); only the single-ingredient replication path is exempt
from the count check. -/
theorem c6_cardinality_contract :
    (∀ ing fr st, 2 ≤ (splitSemiWs ing).length →
      parse_strengths st (splitSemiWs ing).length = none →
      form_tuple ing fr st = none) ∧
    (∀ ing fr st ss, 2 ≤ (splitSemiWs ing).length →
      parse_strengths st (splitSemiWs ing).length = some ss →
      ss.length ≠ (splitSemiWs ing).length →
      form_tuple ing fr st = none) ∧
    (∀ ing fr st t, form_tuple ing fr st = some t →
      ∃ l : List (String × String),
        t.ingredient = joinSep "; " (l.map Prod.fst) ∧
        t.strength = joinSep "; " (l.map Prod.snd)) := by
  refine ⟨?_, ?_, ?_⟩
  · intro ing fr st _ hp
    simp only [form_tuple]
    rw [hp]
  · intro ing fr st ss hlen hp hne
    simp only [form_tuple]
    simp only [hp]
    have h1 : ¬ (splitSemiWs ing).length = 1 := by omega
    rw [if_neg h1]
    rw [if_pos (fun he => hne he.symm)]
  · intro ing fr st t h
    simp only [form_tuple] at h
    cases hp : parse_strengths st (splitSemiWs ing).length with
    | none =>
      rw [hp] at h
      cases h
    | some ss =>
      simp only [hp] at h
      by_cases hc : (if (splitSemiWs ing).length = 1
          then List.replicate ss.length ((splitSemiWs ing).headD "")
          else splitSemiWs ing).length ≠ ss.length
      · rw [if_pos hc] at h
        cases h
      · rw [if_neg hc] at h
        injection h with h
        refine ⟨sortLe pairLeB ((if (splitSemiWs ing).length = 1
          then List.replicate ss.length ((splitSemiWs ing).headD "")
          else splitSemiWs ing).zip ss), ?_, ?_⟩
        · rw [← h]
        · rw [← h]

/-- C10 counterexample: with a single ingredient and the strength text
"2MG;1MG", the constructed tuple's strength column is "1MG; 2MG" —
the canonical pair-sort reorders the strengths, so they are not paired
in parse order as the claim states. -/
theorem c10_counterexample :
    parse_strengths "2MG;1MG" (splitSemiWs "A").length =
      some ["2MG", "1MG"] ∧
    form_tuple "A" "TAB;ORAL" "2MG;1MG" =
      some ⟨"A; A", "TAB;ORAL", "1MG; 2MG"⟩ ∧
    "1MG; 2MG" ≠ joinSep "; " ["2MG", "1MG"] := by
  decide

/-- C10 (amended): on a row whose ingredient field parses to exactly
one ingredient while the strength text parses to n ≥ 2 tokens,
`form_tuple` does not raise the cardinality error: it replicates the
single ingredient n times (semicolon-joined) and pairs it with the n
strengths reordered by the canonical pair-sort (a permutation of the
parsed strengths). -/
theorem c10_single_ingredient_replication (ing fr st : String)
    (i : String) (ss : List String)
    (hsplit : splitSemiWs ing = [i])
    (hparse : parse_strengths st 1 = some ss)
    (_hlen : 2 ≤ ss.length) :
    ∃ ss' : List String, ss'.Perm ss ∧
      form_tuple ing fr st =
        some ⟨joinSep "; " (List.replicate ss.length i),
          ⟨replSemiSpace fr.data⟩, joinSep "; " ss'⟩ := by
  have hmfst : (sortLe pairLeB
      ((List.replicate ss.length i).zip ss)).map Prod.fst =
      List.replicate ss.length i := by
    apply List.eq_replicate_iff.mpr
    constructor
    · rw [List.length_map, (sortLe_perm _ _).length_eq, List.length_zip,
        List.length_replicate, min_self]
    · intro b hb
      obtain ⟨p, hp, hpb⟩ := List.mem_map.mp hb
      have hpz := (sortLe_perm _ _).mem_iff.mp hp
      have hpr := (List.of_mem_zip hpz).1
      rw [← hpb]
      exact List.eq_of_mem_replicate hpr
  refine ⟨(sortLe pairLeB ((List.replicate ss.length i).zip ss)).map
    Prod.snd, ?_, ?_⟩
  · have h1 := (sortLe_perm pairLeB
      ((List.replicate ss.length i).zip ss)).map Prod.snd
    have h2 : ((List.replicate ss.length i).zip ss).map Prod.snd = ss := by
      apply List.map_snd_zip
      rw [List.length_replicate]
    rw [h2] at h1
    exact h1
  · simp only [form_tuple]
    rw [hsplit]
    simp only [List.length_singleton, List.headD_cons]
    simp only [hparse]
    simp only [if_true]
    rw [if_neg (show ¬ (List.replicate ss.length i).length ≠ ss.length by
      rw [List.length_replicate]; exact fun h => h rfl)]
    rw [hmfst]

/-- C7 counterexample: "INJECTION" lies (after synonym normalization) in
the NDC route words and in the OB form words, the cross case the claim
says always matches, yet `equivalent_form` answers `false`: the code
tests the INJECTION cross term only in the ob-route/ndc-form direction. -/
theorem c7_counterexample :
    equivalent_form "INJECTABLE;ORAL" "TABLET;INTRAVENOUS" = some false ∧
    "INJECTION" ∈ form_route_words "INTRAVENOUS" ∧
    "INJECTION" ∈ form_route_words "INJECTABLE" := by
  refine ⟨by decide, by decide, by decide⟩

/-- C7 (amended): with both texts split at their first semicolon into a
form part and a route part, `equivalent_form` answers `true` exactly when
INJECTION is in both route-word sets, or INJECTION (resp. INHALATION) is
in the OB route words and the NDC form words — the cross terms hold in
that one direction only — or both the route-word sets and the form-word
sets intersect; and the spec's example pair is accepted. -/
theorem c7_form_route_special_cases (ob_fr ndc_fr : String)
    (obp ndcp : String × String)
    (hob : splitFirstSemi ob_fr = some obp)
    (hndc : splitFirstSemi ndc_fr = some ndcp) :
    (equivalent_form ob_fr ndc_fr = some true ↔
      ("INJECTION" ∈ form_route_words obp.2 ∧
        "INJECTION" ∈ form_route_words ndcp.2) ∨
      ("INJECTION" ∈ form_route_words obp.2 ∧
        "INJECTION" ∈ form_route_words ndcp.1) ∨
      ("INHALATION" ∈ form_route_words obp.2 ∧
        "INHALATION" ∈ form_route_words ndcp.1) ∨
      ((∃ w, w ∈ form_route_words obp.2 ∧ w ∈ form_route_words ndcp.2) ∧
       (∃ w, w ∈ form_route_words obp.1 ∧ w ∈ form_route_words ndcp.1))) ∧
    equivalent_form "INJECTABLE;IV (INFUSION), SUBCUTANEOUS"
      "INJECTION, SOLUTION;INTRAVENOUS; SUBCUTANEOUS" = some true := by
  constructor
  · rw [equivalent_form, hob, hndc]
    simp only [Option.some.injEq]
    split_ifs with h1 h2 h3 h4 h5
    · exact iff_of_true rfl (Or.inl h1)
    · exact iff_of_true rfl (Or.inr (Or.inl h2))
    · exact iff_of_true rfl (Or.inr (Or.inr (Or.inl h3)))
    · refine iff_of_true rfl (Or.inr (Or.inr (Or.inr ⟨?_, ?_⟩)))
      · simp only [List.any_eq_true, decide_eq_true_eq] at h4
        exact h4
      · simp only [List.any_eq_true, decide_eq_true_eq] at h5
        exact h5
    · refine iff_of_false (by simp) ?_
      simp only [List.any_eq_true, decide_eq_true_eq] at h5
      rintro (h | h | h | ⟨_, ⟨w, hw1, hw2⟩⟩)
      · exact h1 h
      · exact h2 h
      · exact h3 h
      · exact h5 ⟨w, hw1, hw2⟩
    · refine iff_of_false (by simp) ?_
      simp only [List.any_eq_true, decide_eq_true_eq] at h4
      rintro (h | h | h | ⟨⟨w, hw1, hw2⟩, _⟩)
      · exact h1 h
      · exact h2 h
      · exact h3 h
      · exact h4 ⟨w, hw1, hw2⟩
  · decide

/-- Witness for C7: an instance of the characterization at a concrete
pair, proved through the INJECTION-in-both-routes disjunct. -/
theorem c7_form_route_special_cases_witness :
    equivalent_form "SOLUTION;INTRAVENOUS" "INJECTION;INTRAVENOUS" =
      some true :=
  ((c7_form_route_special_cases "SOLUTION;INTRAVENOUS"
      "INJECTION;INTRAVENOUS" ("SOLUTION", "INTRAVENOUS")
      ("INJECTION", "INTRAVENOUS") (by decide) (by decide)).1).mpr
    (Or.inl ⟨by decide, by decide⟩)

/-- C9 counterexample: the only number in the OB text "1.00005MG" is
within relative tolerance 1e-4 of the NDC strength 1, yet
`equivalent_strength` answers `false`: the plain-number comparison uses
`math.isclose`'s default relative tolerance 1e-9 (or exact equality),
not the ~1e-4 of the claim. -/
theorem c9_counterexample :
    equivalent_strength (some "1.00005MG") "1" "mg" = some false ∧
    obNums "1.00005MG" = [("1.00005", 100005 / 100000)] ∧
    isclose (100005 / 100000 : ℚ) 1 ((1 : ℚ) / 10 ^ 4) = true :=
  ⟨by with_unfolding_all rfl, by with_unfolding_all rfl,
   by with_unfolding_all rfl⟩

/-- C9 (amended): a missing OB strength answers `false`; for any NDC
strength parsing to `nS` and any unit — embedding no number, so the
per-unit value `nRatio` is `nS` itself, or embedding a nonzero number
that divides it — each clause of the reconciliation contract suffices
for `true`: an OB number equal to the NDC strength as text, or close
to it at relative tolerance 1e-9 — not ~1e-4 — or exactly equal to the
per-unit value, or matching the gram (×1000, with "GM" in the OB text
or "ug" in the unit), gram-per-unit (÷1000, unit starting "g/") or
percent (×10) conversion at relative tolerance 1e-4, or an explicit
OB-side ratio close to the per-unit value at 1e-4; and the spec's four
examples behave as stated. -/
theorem c9_strength_tolerances :
    (∀ ndcS ndcU, equivalent_strength none ndcS ndcU = some false) ∧
    (∀ ob ndcS ndcU (nS nRatio : ℚ), parseDec ndcS = some nS →
      ((scanFirstNum ndcU.data = none ∧ nRatio = nS) ∨
       (∃ dl, scanFirstNum ndcU.data = some dl ∧ decToRat dl ≠ 0 ∧
          nRatio = nS / decToRat dl)) →
      (∀ sq ∈ obNums ob,
        (sq.1 = ndcS ∨
         isclose sq.2 nS ((1 : ℚ) / 10 ^ 9) = true ∨
         sq.2 = nRatio ∨
         (((findSubIdx "GM".data ob.data).isSome = true ∨
           (findSubIdx "ug".data ndcU.data).isSome = true) ∧
          (isclose (sq.2 * 1000) nRatio ((1 : ℚ) / 10 ^ 4) = true ∨
           isclose (sq.2 * 1000) nS ((1 : ℚ) / 10 ^ 4) = true)) ∨
         ("g/".data.isPrefixOf ndcU.data = true ∧
          isclose (sq.2 / 1000) nS ((1 : ℚ) / 10 ^ 4) = true) ∨
         ((findSubIdx "%".data ob.data).isSome = true ∧
          (isclose (sq.2 * 10) nRatio ((1 : ℚ) / 10 ^ 4) = true ∨
           isclose (sq.2 * 10) nS ((1 : ℚ) / 10 ^ 4) = true))) →
        equivalent_strength (some ob) ndcS ndcU = some true) ∧
      (∀ x y : ℚ, ratioMatch ob = some (x, y) → y ≠ 0 →
        isclose (x / y) nRatio ((1 : ℚ) / 10 ^ 4) = true →
        equivalent_strength (some ob) ndcS ndcU = some true)) ∧
    equivalent_strength (some "EQ 6.3MG BASE") "6.3" "mg/1" = some true ∧
    equivalent_strength (some "1GM") "1000" "mg" = some true ∧
    equivalent_strength (some "0.004%") "0.04" "mg/mL" = some true ∧
    equivalent_strength (some "1MG") "1000" "mg" = some false := by
  refine ⟨fun ndcS ndcU => rfl, ?_, by with_unfolding_all rfl,
    by with_unfolding_all rfl, by with_unfolding_all rfl,
    by with_unfolding_all rfl⟩
  intro ob ndcS ndcU nS nRatio hp hu
  have hcore : equivalent_strength (some ob) ndcS ndcU =
      equivStrengthCore ob ndcS ndcU nS nRatio := by
    rcases hu with ⟨hnone, hr⟩ | ⟨dl, hsome, hdl, hr⟩
    · simp only [equivalent_strength, hp, hnone, hr]
    · simp only [equivalent_strength, hp, hsome]
      rw [if_neg hdl, hr]
  constructor
  · intro sq hmem hdisj
    rw [hcore, equivStrengthCore]
    split
    · rfl
    · rename ¬ _ => h
      exfalso
      apply h
      refine List.any_eq_true.mpr ⟨sq, hmem, ?_⟩
      simp only [Bool.or_eq_true, Bool.and_eq_true, decide_eq_true_eq]
      tauto
  · intro x y hrm hy hcl
    rw [hcore, equivStrengthCore]
    split
    · rfl
    · simp only [hrm]
      rw [if_neg hy, hcl]

/-- Witness for C9: the 1e-9 plain-number clause at a concrete input. -/
theorem c9_strength_tolerances_witness :
    equivalent_strength (some "0.7MG") ".7" "MG" = some true :=
  (c9_strength_tolerances.2.1 "0.7MG" ".7" "MG" (7 / 10) (7 / 10)
      (by with_unfolding_all rfl) (Or.inl ⟨rfl, rfl⟩)).1
    ("0.7", 7 / 10)
    (by
      have h : obNums "0.7MG" = [("0.7", (7 : ℚ) / 10)] := by
        with_unfolding_all rfl
      rw [h]
      exact List.mem_singleton.mpr rfl)
    (Or.inr (Or.inl (by with_unfolding_all rfl)))

lemma filter_map_eq {α β : Type} (f : α → β) (p : β → Bool) :
    ∀ l : List α,
      (l.map f).filter p = (l.filter (fun a => p (f a))).map f := by
  intro l
  induction l with
  | nil => rfl
  | cons a t ih =>
    simp only [List.map_cons, List.filter_cons]
    cases h : p (f a) <;> simp [h, ih]

lemma filter_filter_eq {α : Type} (p q : α → Bool) :
    ∀ l : List α,
      (l.filter p).filter q = l.filter (fun a => p a && q a) := by
  intro l
  induction l with
  | nil => rfl
  | cons a t ih =>
    simp only [List.filter_cons]
    cases hp : p a <;> cases hq : q a <;> simp [hp, hq, List.filter_cons, ih]

lemma matchPred_eq_head (l : List String) (w : String) :
    (match l with
     | [] => false
     | x :: _ => decide (x = w)) = decide (l.head? = some w) := by
  cases l <;> simp

lemma specFilter_step_pt (ws : List String) (j : Nat) (hj : j < ws.length)
    (L : List String) :
    ((decide (j ≤ L.length) && decide (L.take j = ws.take j)) &&
      decide ((L.drop j).head? = some ws[j])) =
    (decide (j + 1 ≤ L.length) &&
      decide (L.take (j + 1) = ws.take (j + 1))) := by
  simp only [← Bool.decide_and]
  rw [decide_eq_decide]
  constructor
  · rintro ⟨⟨hlen, htake⟩, hhead⟩
    have hLj : j < L.length := by
      rcases Nat.lt_or_ge j L.length with h | h
      · exact h
      · rw [List.drop_eq_nil_of_le h] at hhead
        simp at hhead
    refine ⟨hLj, ?_⟩
    rw [List.take_succ, List.take_succ, List.getElem?_eq_getElem hLj,
      List.getElem?_eq_getElem hj]
    have hgl : L[j] = ws[j] := by
      rw [List.drop_eq_getElem_cons hLj, List.head?_cons] at hhead
      exact Option.some.inj hhead
    rw [htake, hgl]
  · rintro ⟨hlen, htake⟩
    have hLj : j < L.length := hlen
    rw [List.take_succ, List.take_succ, List.getElem?_eq_getElem hLj,
      List.getElem?_eq_getElem hj] at htake
    simp only [Option.toList_some] at htake
    have hlens : (L.take j).length = (ws.take j).length := by
      rw [List.length_take, List.length_take]
      omega
    obtain ⟨h1, h2⟩ := List.append_inj htake hlens
    refine ⟨⟨Nat.le_of_lt hLj, h1⟩, ?_⟩
    rw [List.drop_eq_getElem_cons hLj, List.head?_cons]
    injection h2 with h2a _
    rw [h2a]

lemma matchGo_eq_specGo :
    ∀ (n j : Nat) (ws keys : List String), ws.length = j + n →
      matchGo (ws.drop j)
        ((specFilter ws j keys).map (fun k => ((splitSpace k).drop j, k)))
        = specGo ws keys j n := by
  intro n
  induction n with
  | zero =>
    intro j ws keys h
    rw [List.drop_eq_nil_of_le (by omega)]
    rfl
  | succ n ih =>
    intro j ws keys h
    have hj : j < ws.length := by omega
    rw [List.drop_eq_getElem_cons hj]
    simp only [matchGo]
    rw [filter_map_eq]
    have hstep :
        (specFilter ws j keys).filter
            (fun k =>
              (match ((splitSpace k).drop j, k).1 with
               | [] => false
               | x :: _ => decide (x = ws[j]))) =
          specFilter ws (j + 1) keys := by
      rw [specFilter, filter_filter_eq]
      apply List.filter_congr
      intro k _
      rw [matchPred_eq_head]
      exact specFilter_step_pt ws j hj (splitSpace k)
    rw [hstep]
    cases hC : specFilter ws (j + 1) keys with
    | nil => simp [specGo, hC]
    | cons k1 t =>
      cases t with
      | nil => simp [specGo, hC]
      | cons k2 t2 =>
        simp only [List.map_cons, specGo, hC]
        show matchGo (ws.drop (j + 1))
            ((((k1 :: k2 :: t2).map
                (fun k => ((splitSpace k).drop j, k))).map
              (fun m => (m.1.tail, m.2)))) = _
        rw [List.map_map]
        have hfun :
            ((fun (m : List String × String) => (m.1.tail, m.2)) ∘
              (fun k => ((splitSpace k).drop j, k))) =
            (fun k => ((splitSpace k).drop (j + 1), k)) := by
          funext k
          show ((splitSpace k).drop j |>.tail, k) = _
          rw [List.tail_drop]
        rw [hfun, ← hC]
        exact ih (j + 1) ws keys (by omega)

lemma matchGo_mem :
    ∀ (ws : List String) (ms : List (List String × String)) (k : String),
      matchGo ws ms = some k → ∃ m ∈ ms, m.2 = k := by
  intro ws
  induction ws with
  | nil => intro ms k h; exact absurd h (by simp [matchGo])
  | cons w ws ih =>
    intro ms k h
    simp only [matchGo] at h
    cases hF : ms.filter (fun m =>
        (match m.1 with
         | [] => false
         | x :: _ => decide (x = w))) with
    | nil => rw [hF] at h; exact absurd h (by simp)
    | cons m1 t =>
      cases t with
      | nil =>
        rw [hF] at h
        refine ⟨m1, ?_, Option.some.inj h⟩
        exact List.mem_of_mem_filter (hF ▸ List.mem_cons_self m1 [])
      | cons m2 t2 =>
        rw [hF] at h
        obtain ⟨m', hm', hk⟩ := ih _ k h
        rw [List.mem_map] at hm'
        obtain ⟨m0, hm0, hme⟩ := hm'
        refine ⟨m0, ?_, ?_⟩
        · exact List.mem_of_mem_filter (hF ▸ hm0)
        · rw [← hk, ← hme]

lemma match_ingredient_eq_spec (ing : String) (keys : List String) :
    match_ingredient ing keys = spec_match_ingredient ing keys := by
  rw [match_ingredient, spec_match_ingredient]
  have h := matchGo_eq_specGo (splitSpace ing).length 0 (splitSpace ing)
    keys (by omega)
  rw [List.drop_zero] at h
  rw [← h]
  have hsf : specFilter (splitSpace ing) 0 keys = keys := by
    rw [specFilter]
    simp
  rw [hsf]
  rfl

/-- C8: ingredient matching is exactly the spec's prefix-disambiguation
(narrow the A-side candidates by agreement on the first word, then two,
and so on, matching on a unique candidate and failing on zero or on
exhaustion); a returned match is one of the candidate keys; a consumed
key is gone from the pool; a B-side ingredient with no match fails the
whole comparison; and `equivalent_composition` accepts exactly when the
loop finishes with an empty A-side pool. -/
theorem c8_ingredient_matching :
    (∀ ing keys,
      match_ingredient ing keys = spec_match_ingredient ing keys) ∧
    (∀ ing keys k, match_ingredient ing keys = some k → k ∈ keys) ∧
    (∀ (d : List (String × String)) (k : String),
      k ∉ (eraseKey d k).map Prod.fst) ∧
    (∀ ing st un rest (d : List (String × String)),
      match_ingredient ing (d.map Prod.fst) = none →
      compLoop ((ing, st, un) :: rest) d = some none) ∧
    (∀ ob_comps ndc_comps,
      equivalent_composition ob_comps ndc_comps = some true ↔
        compLoop ndc_comps (dictOf ob_comps) = some (some [])) := by
  refine ⟨match_ingredient_eq_spec, ?_, ?_, ?_, ?_⟩
  · intro ing keys k h
    rw [match_ingredient] at h
    obtain ⟨m, hm, hk⟩ := matchGo_mem _ _ _ h
    rw [List.mem_map] at hm
    obtain ⟨k0, hk0, hke⟩ := hm
    have : k0 = k := by rw [← hk, ← hke]
    exact this ▸ hk0
  · intro d k h
    rw [List.mem_map] at h
    obtain ⟨q, hq, hqk⟩ := h
    rw [eraseKey, List.mem_filter] at hq
    exact absurd hqk (by simpa using hq.2)
  · intro ing st un rest d h
    simp only [compLoop, h]
  · intro obc ndcc
    rw [equivalent_composition]
    cases h : compLoop ndcc (dictOf obc) with
    | none => simp
    | some o =>
      cases o with
      | none => simp
      | some d => simp [List.isEmpty_iff]

/-- Witness for C8: the hypothesis-bearing parts applied at concrete
inputs. -/
theorem c8_ingredient_matching_witness :
    "A C" ∈ ["A B", "A C"] ∧
    compLoop [("B", "1", "mg")] [("A", "5%")] = some none ∧
    equivalent_composition [("X", "1MG")] [("X", "1", "mg")] = some true :=
  ⟨c8_ingredient_matching.2.1 "A C" ["A B", "A C"] "A C" (by decide),
   c8_ingredient_matching.2.2.2.1 "B" "1" "mg" [] [("A", "5%")]
     (by decide),
   (c8_ingredient_matching.2.2.2.2 [("X", "1MG")] [("X", "1", "mg")]).mpr
     (by with_unfolding_all rfl)⟩

/-- Witness for C1: the partition/transitive-closure characterization
at a one-record stream and its concrete resulting state. -/
theorem c1_order_independent_partition_witness :
    sameClass ⟨[(0, ⟨[⟨"I", "F;R", "1MG"⟩], [⟨"N001", "001"⟩]⟩)], 1,
        [(⟨"I", "F;R", "1MG"⟩, 0)], [(⟨"N001", "001"⟩, 0)]⟩
      (RegKey.ft ⟨"I", "F;R", "1MG"⟩) (RegKey.apt ⟨"N001", "001"⟩) ↔
    Relation.TransGen (cooccur [(⟨"I", "F;R", "1MG"⟩, ⟨"N001", "001"⟩)])
      (RegKey.ft ⟨"I", "F;R", "1MG"⟩) (RegKey.apt ⟨"N001", "001"⟩) :=
  c1_order_independent_partition.2.1
    [(⟨"I", "F;R", "1MG"⟩, ⟨"N001", "001"⟩)]
    ⟨[(0, ⟨[⟨"I", "F;R", "1MG"⟩], [⟨"N001", "001"⟩]⟩)], 1,
      [(⟨"I", "F;R", "1MG"⟩, 0)], [(⟨"N001", "001"⟩, 0)]⟩ (by decide)
    (RegKey.ft ⟨"I", "F;R", "1MG"⟩) (RegKey.apt ⟨"N001", "001"⟩)

/-- Witness for C2: the live-id Nodup invariant at a concrete
reachable state. -/
theorem c2_registry_invariants_witness :
    ((⟨[(0, ⟨[⟨"I", "F;R", "1MG"⟩], [⟨"N001", "001"⟩]⟩)], 1,
      [(⟨"I", "F;R", "1MG"⟩, 0)], [(⟨"N001", "001"⟩, 0)]⟩ :
        EqState).eq_classes.map Prod.fst).Nodup :=
  (c2_registry_invariants [(⟨"I", "F;R", "1MG"⟩, ⟨"N001", "001"⟩)]
    ⟨[(0, ⟨[⟨"I", "F;R", "1MG"⟩], [⟨"N001", "001"⟩]⟩)], 1,
      [(⟨"I", "F;R", "1MG"⟩, 0)], [(⟨"N001", "001"⟩, 0)]⟩
    (by decide)).2.2.2.2.2.2.1

/-- Witness for C3: merging two concrete singleton classes. -/
theorem c3_merge_two_classes_witness :
    ∃ s', EquivalenceClass.addRec
        ⟨[(0, ⟨[⟨"I1", "F;R", "1MG"⟩], [⟨"N1", "001"⟩]⟩),
          (1, ⟨[⟨"I2", "F;R", "2MG"⟩], [⟨"N2", "001"⟩]⟩)], 2,
         [(⟨"I1", "F;R", "1MG"⟩, 0), (⟨"I2", "F;R", "2MG"⟩, 1)],
         [(⟨"N1", "001"⟩, 0), (⟨"N2", "001"⟩, 1)]⟩
        ⟨"I1", "F;R", "1MG"⟩ ⟨"N2", "001"⟩ = some s' ∧
      s'.eq_classes.map Prod.fst = [0] ∧
      (∃ c, lookupA s'.eq_classes 0 = some c ∧
        (∀ x, x ∈ c.form_tuples ↔
          x = ⟨"I1", "F;R", "1MG"⟩ ∨ x = ⟨"I2", "F;R", "2MG"⟩) ∧
        (∀ x, x ∈ c.app_tuples ↔
          x = ⟨"N1", "001"⟩ ∨ x = ⟨"N2", "001"⟩)) ∧
      lookupA s'.eq_classes 1 = none :=
  c3_merge_two_classes ⟨"I1", "F;R", "1MG"⟩ ⟨"I2", "F;R", "2MG"⟩
    ⟨"N1", "001"⟩ ⟨"N2", "001"⟩ 0 1 _ rfl (by decide) (by decide)
    (by decide) (by decide) (by decide)

/-- Witness for C4: re-ingesting the one ingested record leaves the
concrete state unchanged. -/
theorem c4_ingest_idempotent_witness :
    EquivalenceClass.addRec
      ⟨[(0, ⟨[⟨"I", "F;R", "1MG"⟩], [⟨"N001", "001"⟩]⟩)], 1,
        [(⟨"I", "F;R", "1MG"⟩, 0)], [(⟨"N001", "001"⟩, 0)]⟩
      ⟨"I", "F;R", "1MG"⟩ ⟨"N001", "001"⟩ =
    some ⟨[(0, ⟨[⟨"I", "F;R", "1MG"⟩], [⟨"N001", "001"⟩]⟩)], 1,
        [(⟨"I", "F;R", "1MG"⟩, 0)], [(⟨"N001", "001"⟩, 0)]⟩ :=
  (c4_ingest_idempotent [(⟨"I", "F;R", "1MG"⟩, ⟨"N001", "001"⟩)]
    ⟨[(0, ⟨[⟨"I", "F;R", "1MG"⟩], [⟨"N001", "001"⟩]⟩)], 1,
      [(⟨"I", "F;R", "1MG"⟩, 0)], [(⟨"N001", "001"⟩, 0)]⟩
    ⟨"I", "F;R", "1MG"⟩ ⟨"N001", "001"⟩ (by decide) (by decide)).1

/-- Witness for C5: the round trip at a concrete reachable state. -/
theorem c5_round_trip_witness :
    ∃ s', load_summary (summaryOf
        ⟨[(0, ⟨[⟨"I", "F;R", "1MG"⟩], [⟨"N001", "001"⟩]⟩)], 1,
         [(⟨"I", "F;R", "1MG"⟩, 0)], [(⟨"N001", "001"⟩, 0)]⟩) = some s' ∧
      s'.eq_classes.map Prod.fst =
        (⟨[(0, ⟨[⟨"I", "F;R", "1MG"⟩], [⟨"N001", "001"⟩]⟩)], 1,
          [(⟨"I", "F;R", "1MG"⟩, 0)], [(⟨"N001", "001"⟩, 0)]⟩ :
            EqState).eq_classes.map Prod.fst ∧
      (∀ i c', lookupA s'.eq_classes i = some c' →
        ∃ c, lookupA (⟨[(0, ⟨[⟨"I", "F;R", "1MG"⟩], [⟨"N001", "001"⟩]⟩)],
            1, [(⟨"I", "F;R", "1MG"⟩, 0)], [(⟨"N001", "001"⟩, 0)]⟩ :
              EqState).eq_classes i = some c ∧
          (∀ x, x ∈ c'.form_tuples ↔ x ∈ c.form_tuples) ∧
          (∀ x, x ∈ c'.app_tuples ↔ x ∈ c.app_tuples)) ∧
      (∀ i c, lookupA (⟨[(0, ⟨[⟨"I", "F;R", "1MG"⟩], [⟨"N001", "001"⟩]⟩)],
          1, [(⟨"I", "F;R", "1MG"⟩, 0)], [(⟨"N001", "001"⟩, 0)]⟩ :
            EqState).eq_classes i = some c →
        ∃ c', lookupA s'.eq_classes i = some c' ∧
          (∀ x, x ∈ c'.form_tuples ↔ x ∈ c.form_tuples) ∧
          (∀ x, x ∈ c'.app_tuples ↔ x ∈ c.app_tuples)) ∧
      (∀ f, lookupA s'.form_tuple_classes f =
        lookupA (⟨[(0, ⟨[⟨"I", "F;R", "1MG"⟩], [⟨"N001", "001"⟩]⟩)], 1,
          [(⟨"I", "F;R", "1MG"⟩, 0)], [(⟨"N001", "001"⟩, 0)]⟩ :
            EqState).form_tuple_classes f) ∧
      (∀ a, lookupA s'.app_tuple_classes a =
        lookupA (⟨[(0, ⟨[⟨"I", "F;R", "1MG"⟩], [⟨"N001", "001"⟩]⟩)], 1,
          [(⟨"I", "F;R", "1MG"⟩, 0)], [(⟨"N001", "001"⟩, 0)]⟩ :
            EqState).app_tuple_classes a) :=
  c5_round_trip [(⟨"I", "F;R", "1MG"⟩, ⟨"N001", "001"⟩)] _ (by decide)

/-- Witness for C6: two ingredients with an unsegmentable strength
text make key construction fail. -/
theorem c6_cardinality_contract_witness :
    form_tuple "A;B" "TAB;ORAL" "1MG" = none :=
  c6_cardinality_contract.1 "A;B" "TAB;ORAL" "1MG" (by decide)
    (by decide)

/-- Witness for C10: the replication result at a concrete row. -/
theorem c10_single_ingredient_replication_witness :
    ∃ ss' : List String, ss'.Perm ["2MG", "1MG"] ∧
      form_tuple "A" "TAB;ORAL" "2MG;1MG" =
        some ⟨joinSep "; "
            (List.replicate (["2MG", "1MG"] : List String).length "A"),
          ⟨replSemiSpace ("TAB;ORAL" : String).data⟩,
          joinSep "; " ss'⟩ :=
  c10_single_ingredient_replication "A" "TAB;ORAL" "2MG;1MG" "A"
    ["2MG", "1MG"] (by decide) (by decide) (by decide)
